import Mathlib

/-!
Verification of a two-variant hash map (open addressing with quadratic probing,
and separate chaining), shallowly embedded from the Python source files
hash-map-oa.py and hash-map-sc.py.

Keys and values are modelled parametrically (the hash function is an injected
parameter returning a non-negative integer, as the repository's spec describes
for the external hashing collaborator).  Python machine integers are modelled
as Nat or Int; the load factor is a rational number.  The mutual recursion
between put and resize_table is modelled with an explicit fuel parameter: a
call that runs out of fuel returns none, and every theorem about put/resize is
stated for executions that return some state.
-/

namespace HashMapVerif

/-! ## Primality engine (HashMap._is_prime / HashMap._next_prime)

Both source files contain identical copies of these two static helpers.
They operate on Python ints, which we model as Int.  Python's `%` on a
positive divisor agrees with Int.emod.  The `while factor ** 2 <= capacity`
loop of `_is_prime` and the `while not is_prime` loop of `_next_prime` are
modelled with a fuel argument that is provably sufficient (lemmas below show
the fuelled loops have already stabilised at these fuels). -/

/-- Trial-division loop of `_is_prime`: `while factor ** 2 <= capacity: if
capacity % factor == 0: return False; factor += 2`.  Returns `true` when the
loop exits normally.  The fuel only bounds the iteration count; it is chosen
so that it never runs out (see `trialLoop_congr`). -/
def trialLoop : Nat → Int → Int → Bool
  | 0, _, _ => true
  | fuel + 1, c, factor =>
    if factor ^ 2 ≤ c then
      if c % factor = 0 then false else trialLoop fuel c (factor + 2)
    else true

/-- `HashMap._is_prime` from the source: special-cases 2, 3, then 1 and even
numbers, then trial-divides by odd factors up to the square root. -/
def is_prime (c : Int) : Bool :=
  if c = 2 ∨ c = 3 then true
  else if c = 1 ∨ c % 2 = 0 then false
  else trialLoop (c.toNat + 1) c 3

/-- The `while not is_prime: capacity += 2` loop of `_next_prime`. -/
def findPrimeLoop : Nat → Int → Int
  | 0, c => c
  | fuel + 1, c => if is_prime c then c else findPrimeLoop fuel (c + 2)

/-- `HashMap._next_prime` from the source: make the candidate odd by adding 1
if even, then step by 2 until `_is_prime` holds. -/
def next_prime (c : Int) : Int :=
  let c1 := if c % 2 = 0 then c + 1 else c
  findPrimeLoop (c1.toNat + 4) c1

/-! ## Generic loop helper

Python `while probe < capacity` loops that scan probe numbers 0, 1, 2, … and
return at the first index satisfying a condition are translated with
`firstHit p n`: the least `i < n` with `p i = true`, if any. -/

/-- Scan `steps` consecutive integers starting at `i`, returning the first
one satisfying `p`. -/
def scanLoop (p : Nat → Bool) : Nat → Nat → Option Nat
  | _, 0 => none
  | i, steps + 1 => if p i then some i else scanLoop p (i + 1) steps

/-- First `i < n` with `p i = true`. -/
def firstHit (p : Nat → Bool) (n : Nat) : Option Nat := scanLoop p 0 n

/-! ## Open-addressing variant (hash-map-oa.py)

The slot entries of the dynamic array are `Option (HashEntry K V)`: `none` is
Python's `None` (a never-used slot), and a `HashEntry` carries the mutable
`is_tombstone` flag.  Keys and values are type parameters and the hash
function is the injected constructor argument, exactly as in the source.  The
`_size` and `_capacity` ints are modelled as `Nat` (the source never lets
either go negative along the operations modelled here), while the arguments of
`__init__` and `resize_table` stay `Int` so that the guard comparisons happen
at Python's int type. -/

structure HashEntry (K V : Type) where
  key : K
  value : V
  is_tombstone : Bool
deriving DecidableEq

namespace OA

structure HashMap (K V : Type) where
  buckets : List (Option (HashEntry K V))
  capacity : Nat
  size : Nat
  hash_function : K → Nat

variable {K V : Type} [DecidableEq K]

/-- `HashMap.__init__`: capacity is `_next_prime(capacity)` and the bucket
array gets one `None` per unit of capacity.  (Python accepts negative
requests, producing a negative `_capacity` and an empty array; the `Nat`
coercion below is faithful for the non-negative requests that `Reach`
below admits.) -/
def init (capacity : Int) (function : K → Nat) : HashMap K V :=
  let cap := (next_prime capacity).toNat
  { buckets := List.replicate cap none
    capacity := cap
    size := 0
    hash_function := function }

/-- Slot read `self._buckets[j]`. -/
def slotAt (s : HashMap K V) (j : Nat) : Option (HashEntry K V) :=
  s.buckets.getD j none

/-- The condition `self._buckets[index] is None or self._buckets[index].is_tombstone`. -/
def slotAvailable : Option (HashEntry K V) → Bool
  | none => true
  | some e => e.is_tombstone

/-- A live (non-tombstoned) entry. -/
def slotLive : Option (HashEntry K V) → Bool
  | none => false
  | some e => !e.is_tombstone

/-- A live entry whose key equals `k` (the found condition of get /
contains_key / remove). -/
def slotLiveKey (k : K) : Option (HashEntry K V) → Bool
  | none => false
  | some e => !e.is_tombstone && decide (e.key = k)

/-- Quadratic probe position number `i` for key `k`:
`index = (initial_index + probe ** 2) % capacity` with
`initial_index = hash(key) % capacity`. -/
def probeIndex (s : HashMap K V) (k : K) (i : Nat) : Nat :=
  (s.hash_function k % s.capacity + i ^ 2) % s.capacity

/-- `HashMap.table_load`: `self._size / self._capacity` at Python float
precision, modelled exactly as a rational. -/
def table_load (s : HashMap K V) : ℚ :=
  (s.size : ℚ) / (s.capacity : ℚ)

/-- `HashMap.empty_buckets`: counts slots that are `None` or tombstoned. -/
def empty_buckets (s : HashMap K V) : Nat :=
  s.buckets.countP slotAvailable

/-- Count of live (occupied, non-tombstoned) slots; `_size` tracks this. -/
def liveCount (s : HashMap K V) : Nat :=
  s.buckets.countP slotLive

/-- `HashMap.get_keys_and_values` combined with the `__iter__`/`__next__`
protocol it drives: the (key, value) pairs of live slots in ascending slot
order, skipping `None` and tombstoned slots. -/
def get_keys_and_values (s : HashMap K V) : List (K × V) :=
  s.buckets.filterMap (fun o =>
    match o with
    | none => none
    | some e => if e.is_tombstone then none else some (e.key, e.value))

/-- The capacity actually used by `resize_table`: the request itself when
`_is_prime` accepts it, else `_next_prime` of the request. -/
def coerceCapacity (x : Int) : Nat :=
  (if is_prime x then x else next_prime x).toNat

/-- The freshly rebuilt all-empty map allocated inside `resize_table` before
re-insertion. -/
def freshMap (x : Int) (s : HashMap K V) : HashMap K V :=
  { buckets := List.replicate (coerceCapacity x) none
    capacity := coerceCapacity x
    size := 0
    hash_function := s.hash_function }

/-- The probe-and-write phase of `HashMap.put` (the `while probe <
self._capacity` loop): the first probe whose slot is available receives a
fresh entry (size += 1); if a live slot with the key is found first, its value
is overwritten in place; if the loop exhausts `capacity` probes, the map is
left unchanged. -/
def putProbe (k : K) (s : HashMap K V) : Option Nat :=
  firstHit (fun i => slotAvailable (slotAt s (probeIndex s k i)) ||
    slotLiveKey k (slotAt s (probeIndex s k i))) s.capacity

def insertPhase (k : K) (v : V) (s : HashMap K V) : HashMap K V :=
  match putProbe k s with
  | none => s
  | some i =>
    let j := probeIndex s k i
    if slotAvailable (slotAt s j) then
      { s with buckets := s.buckets.set j (some ⟨k, v, false⟩), size := s.size + 1 }
    else
      { s with buckets := s.buckets.set j ((slotAt s j).map (fun e => { e with value := v })) }

mutual

/-- `HashMap.put`: resize to `_next_prime(2 * capacity)` when the load factor
is at least 0.5, then run the probe-and-write loop.  The mutual recursion with
`resize_table` is bounded by fuel; `none` means the fuel ran out. -/
def put : Nat → K → V → HashMap K V → Option (HashMap K V)
  | 0, _, _, _ => none
  | fuel + 1, k, v, s =>
    match (if (1:ℚ)/2 ≤ table_load s
      then resize_table fuel (next_prime (2 * (s.capacity : Int))) s
      else some s) with
    | none => none
    | some s1 => some (insertPhase k v s1)
termination_by fuel _ _ _ => (fuel, 0)

/-- `HashMap.resize_table`: returns unchanged when `new_capacity <
self._size`; otherwise coerces the request to a prime, snapshots the live
pairs, rebuilds an all-empty bucket array of the new capacity and re-`put`s
every snapshot pair. -/
def resize_table : Nat → Int → HashMap K V → Option (HashMap K V)
  | 0, _, _ => none
  | fuel + 1, new_capacity, s =>
    if new_capacity < (s.size : Int) then some s
    else putAll fuel (get_keys_and_values s) (freshMap new_capacity s)
termination_by fuel _ _ => (fuel, 1)

/-- The re-insertion loop at the end of `resize_table`. -/
def putAll : Nat → List (K × V) → HashMap K V → Option (HashMap K V)
  | _, [], t => some t
  | fuel, kv :: rest, t =>
    match put fuel kv.1 kv.2 t with
    | none => none
    | some t' => putAll fuel rest t'
termination_by fuel pairs _ => (fuel, 2 + pairs.length)

end

/-- The load-factor check and conditional pre-resize at the top of `put`:
`if self.table_load() >= 0.5: self.resize_table(self._next_prime(self._capacity * 2))`. -/
def preResize (fuel : Nat) (s : HashMap K V) : Option (HashMap K V) :=
  if (1:ℚ)/2 ≤ table_load s
  then resize_table fuel (next_prime (2 * (s.capacity : Int))) s
  else some s

/-- The rebuild path of `resize_table`, taken exactly when the request is not
below the current size. -/
def resizeRebuild (fuel : Nat) (x : Int) (s : HashMap K V) : Option (HashMap K V) :=
  putAll fuel (get_keys_and_values s) (freshMap x s)

/-- The probe scan shared by `get`, `contains_key` and `remove`: first probe
number whose slot holds a live entry with the key. -/
def findProbe (k : K) (s : HashMap K V) : Option Nat :=
  firstHit (fun i => slotLiveKey k (slotAt s (probeIndex s k i))) s.capacity

/-- `HashMap.get`: scan the probe sequence for a live entry with the key;
`None` after `capacity` probes. -/
def get (k : K) (s : HashMap K V) : Option V :=
  match findProbe k s with
  | none => none
  | some i =>
    match slotAt s (probeIndex s k i) with
    | none => none
    | some e => some e.value

/-- `HashMap.contains_key`: same scan as `get`, returning whether it found a
live matching entry. -/
def contains_key (k : K) (s : HashMap K V) : Bool :=
  (findProbe k s).isSome

/-- `HashMap.remove`: scan the probe sequence; tombstone the first live
matching entry and decrement size, or do nothing.  (The decrement happens only
when a live entry exists, so `_size` stays non-negative whenever it counts the
live entries.) -/
def remove (k : K) (s : HashMap K V) : HashMap K V :=
  match findProbe k s with
  | none => s
  | some i =>
    let j := probeIndex s k i
    { s with
      buckets := s.buckets.set j ((slotAt s j).map (fun e => { e with is_tombstone := true }))
      size := s.size - 1 }

/-- `HashMap.clear`: every slot back to `None`, size 0, capacity intact. -/
def clear (s : HashMap K V) : HashMap K V :=
  { s with buckets := List.replicate s.capacity none, size := 0 }

/-- `HashMap.get_size`. -/
def get_size (s : HashMap K V) : Nat := s.size

/-- `HashMap.get_capacity`. -/
def get_capacity (s : HashMap K V) : Nat := s.capacity

/-- `HashMap.get` as a state transformer: the source method contains no
assignment to any field of `self`, so its effect on the map state is the
identity. -/
def get_tr (k : K) (s : HashMap K V) : Option V × HashMap K V :=
  (get k s, s)

/-- `HashMap.contains_key` as a state transformer (no field assignments in
the source). -/
def contains_key_tr (k : K) (s : HashMap K V) : Bool × HashMap K V :=
  (contains_key k s, s)

/-- Well-formedness invariant tying the redundant fields to the bucket array:
the array length is the capacity, `_size` counts the live entries, and the
capacity is prime (established by `__init__` and preserved by every
operation). -/
structure Inv (s : HashMap K V) : Prop where
  len_eq : s.buckets.length = s.capacity
  size_eq : s.size = liveCount s
  cap_prime : Nat.Prime s.capacity

/-- The reachable states of the open-addressing map: constructed by
`__init__` (with a non-negative requested capacity) and closed under the
mutating operations. -/
inductive Reach : HashMap K V → Prop
  | of_init (c : Int) (hc : 0 ≤ c) (f : K → Nat) : Reach (init c f)
  | of_put (fuel : Nat) (k : K) (v : V) (s s' : HashMap K V) :
      Reach s → put fuel k v s = some s' → Reach s'
  | of_resize (fuel : Nat) (x : Int) (s s' : HashMap K V) :
      Reach s → resize_table fuel x s = some s' → Reach s'
  | of_remove (k : K) (s : HashMap K V) : Reach s → Reach (remove k s)
  | of_clear (s : HashMap K V) : Reach s → Reach (clear s)

end OA

/-! ## Separate-chaining variant (hash-map-sc.py)

The buckets hold singly linked lists from the missing
`underlying-data-structures` module.  Modelled from the spec: a chain is the
list of its (key, value) nodes in insertion order; `insert` appends a new
node at the chain end, `contains` finds the first node with the key,
`remove` unlinks that node, and iteration walks the chain forward.  `put`
mutates the value of the node returned by `contains`. -/

namespace SC

/-- Modelled from the spec: `LinkedList.contains(key)` as a Boolean (the
source only tests the returned node for truthiness or mutates it). -/
def chainContains {K V : Type} [DecidableEq K] (k : K) (c : List (K × V)) : Bool :=
  c.any (fun kv => decide (kv.1 = k))

/-- Modelled from the spec: the first node with the given key, as driven by
the source's `for node in linked_list` scan in `get`. -/
def chainFind {K V : Type} [DecidableEq K] (k : K) (c : List (K × V)) : Option (K × V) :=
  c.find? (fun kv => decide (kv.1 = k))

/-- Modelled from the spec: `LinkedList.insert(key, value)` appends a new
node to the chain end. -/
def chainInsert {K V : Type} (k : K) (v : V) (c : List (K × V)) : List (K × V) :=
  c ++ [(k, v)]

/-- The effect of `linked_list.contains(key).value = value` in `put`:
overwrite the value of the first node with the key. -/
def chainUpdate {K V : Type} [DecidableEq K] (k : K) (v : V) : List (K × V) → List (K × V)
  | [] => []
  | kv :: rest => if kv.1 = k then (kv.1, v) :: rest else kv :: chainUpdate k v rest

/-- Modelled from the spec: `LinkedList.remove(key)` unlinks the (first)
node with the key. -/
def chainRemove {K V : Type} [DecidableEq K] (k : K) : List (K × V) → List (K × V)
  | [] => []
  | kv :: rest => if kv.1 = k then rest else kv :: chainRemove k rest

structure HashMap (K V : Type) where
  buckets : List (List (K × V))
  capacity : Nat
  size : Nat
  hash_function : K → Nat

variable {K V : Type} [DecidableEq K]

/-- `HashMap.__init__`: capacity is `_next_prime(capacity)` (the Python
default argument is `capacity = 11`) and every bucket starts as an empty
chain. -/
def init (capacity : Int) (function : K → Nat) : HashMap K V :=
  let cap := (next_prime capacity).toNat
  { buckets := List.replicate cap []
    capacity := cap
    size := 0
    hash_function := function }

/-- Bucket read `self._buckets[b]`. -/
def bucketAt (s : HashMap K V) (b : Nat) : List (K × V) :=
  s.buckets.getD b []

/-- `self._hash_function(key) % self._capacity`. -/
def bucketIndex (s : HashMap K V) (k : K) : Nat :=
  s.hash_function k % s.capacity

/-- `HashMap.table_load`. -/
def table_load (s : HashMap K V) : ℚ :=
  (s.size : ℚ) / (s.capacity : ℚ)

/-- `HashMap.empty_buckets`: buckets whose chain length is 0. -/
def empty_buckets (s : HashMap K V) : Nat :=
  s.buckets.countP (fun c => decide (c.length = 0))

/-- `HashMap.get_keys_and_values`: all chain nodes, bucket by bucket, in
chain order. -/
def get_keys_and_values (s : HashMap K V) : List (K × V) :=
  s.buckets.flatten

/-- The capacity coercion of `resize_table` (shared logic with the
open-addressing file). -/
def coerceCapacity (x : Int) : Nat :=
  (if is_prime x then x else next_prime x).toNat

/-- The freshly rebuilt all-empty-chain map allocated inside `resize_table`. -/
def freshMap (x : Int) (s : HashMap K V) : HashMap K V :=
  { buckets := List.replicate (coerceCapacity x) []
    capacity := coerceCapacity x
    size := 0
    hash_function := s.hash_function }

/-- The bucket-write phase of `put`: overwrite the first node with the key if
the chain contains it, else append a new node and grow the size. -/
def insertPhase (k : K) (v : V) (s : HashMap K V) : HashMap K V :=
  let b := bucketIndex s k
  let linked_list := bucketAt s b
  if chainContains k linked_list then
    { s with buckets := s.buckets.set b (chainUpdate k v linked_list) }
  else
    { s with buckets := s.buckets.set b (chainInsert k v linked_list), size := s.size + 1 }

mutual

/-- `HashMap.put`: resize to `_next_prime(2 * capacity)` when the load factor
is at least 1.0, then write into the key's bucket. -/
def put : Nat → K → V → HashMap K V → Option (HashMap K V)
  | 0, _, _, _ => none
  | fuel + 1, k, v, s =>
    match (if (1:ℚ) ≤ table_load s
      then resize_table fuel (next_prime (2 * (s.capacity : Int))) s
      else some s) with
    | none => none
    | some s1 => some (insertPhase k v s1)
termination_by fuel _ _ _ => (fuel, 0)

/-- `HashMap.resize_table`: no-op when `new_capacity < 1`; otherwise coerce
to a prime, snapshot the pairs, rebuild empty chains and re-`put`. -/
def resize_table : Nat → Int → HashMap K V → Option (HashMap K V)
  | 0, _, _ => none
  | fuel + 1, new_capacity, s =>
    if new_capacity < 1 then some s
    else putAll fuel (get_keys_and_values s) (freshMap new_capacity s)
termination_by fuel _ _ => (fuel, 1)

/-- The re-insertion loop at the end of `resize_table`. -/
def putAll : Nat → List (K × V) → HashMap K V → Option (HashMap K V)
  | _, [], t => some t
  | fuel, kv :: rest, t =>
    match put fuel kv.1 kv.2 t with
    | none => none
    | some t' => putAll fuel rest t'
termination_by fuel pairs _ => (fuel, 2 + pairs.length)

end

/-- The load-factor check and conditional pre-resize at the top of `put`. -/
def preResize (fuel : Nat) (s : HashMap K V) : Option (HashMap K V) :=
  if (1:ℚ) ≤ table_load s
  then resize_table fuel (next_prime (2 * (s.capacity : Int))) s
  else some s

/-- The rebuild path of `resize_table`, taken exactly when the request is at
least 1. -/
def resizeRebuild (fuel : Nat) (x : Int) (s : HashMap K V) : Option (HashMap K V) :=
  putAll fuel (get_keys_and_values s) (freshMap x s)

/-- `HashMap.contains_key`: `False` on an empty map, else scan the key's
bucket chain. -/
def contains_key (k : K) (s : HashMap K V) : Bool :=
  if s.size = 0 then false
  else chainContains k (bucketAt s (bucketIndex s k))

/-- `HashMap.get`: `None` when `contains_key` fails, else the value of the
first chain node with the key. -/
def get (k : K) (s : HashMap K V) : Option V :=
  if contains_key k s = false then none
  else
    match chainFind k (bucketAt s (bucketIndex s k)) with
    | none => none
    | some kv => some kv.2

/-- `HashMap.remove`: no-op when the key is absent; otherwise walk every
bucket (the source loops over all of `range(capacity)` without breaking),
unlink the key from each chain containing it and decrement the size each
time. -/
def remove (k : K) (s : HashMap K V) : HashMap K V :=
  if contains_key k s = false then s
  else
    { s with
      buckets := s.buckets.map (fun c => if chainContains k c then chainRemove k c else c)
      size := s.size - s.buckets.countP (fun c => chainContains k c) }

/-- `HashMap.clear`. -/
def clear (s : HashMap K V) : HashMap K V :=
  { s with buckets := List.replicate s.capacity [], size := 0 }

/-- `HashMap.get_size`. -/
def get_size (s : HashMap K V) : Nat := s.size

/-- `HashMap.get_capacity`. -/
def get_capacity (s : HashMap K V) : Nat := s.capacity

/-- `HashMap.get` as a state transformer (no assignment to any `self` field
in the source). -/
def get_tr (k : K) (s : HashMap K V) : Option V × HashMap K V :=
  (get k s, s)

/-- `HashMap.contains_key` as a state transformer (no field assignments in
the source). -/
def contains_key_tr (k : K) (s : HashMap K V) : Bool × HashMap K V :=
  (contains_key k s, s)

/-- Well-formedness invariant of the chaining map: array length = capacity,
`_size` = total chain length, capacity prime, the size never exceeds the
capacity, every node sits in the bucket its key hashes to, and chains hold
each key at most once. -/
structure Inv (s : HashMap K V) : Prop where
  len_eq : s.buckets.length = s.capacity
  size_eq : s.size = (s.buckets.map List.length).sum
  cap_prime : Nat.Prime s.capacity
  size_le : s.size ≤ s.capacity
  hash_ok : ∀ b, b < s.buckets.length →
    ∀ x ∈ (s.buckets.getD b []).map Prod.fst, s.hash_function x % s.capacity = b
  chains_nodup : ∀ b, b < s.buckets.length →
    ((s.buckets.getD b []).map Prod.fst).Nodup

/-- The reachable states of the chaining map. -/
inductive Reach : HashMap K V → Prop
  | of_init (c : Int) (hc : 0 ≤ c) (f : K → Nat) : Reach (init c f)
  | of_put (fuel : Nat) (k : K) (v : V) (s s' : HashMap K V) :
      Reach s → put fuel k v s = some s' → Reach s'
  | of_resize (fuel : Nat) (x : Int) (s s' : HashMap K V) :
      Reach s → resize_table fuel x s = some s' → Reach s'
  | of_remove (k : K) (s : HashMap K V) : Reach s → Reach (remove k s)
  | of_clear (s : HashMap K V) : Reach s → Reach (clear s)

/-! ### `find_mode` -/

/-- The frequency-building loop of `find_mode` (source lines 249-255):
count an occurrence by `put`-ting `get + 1` when the element is already a
key, else `put` 1. Fuelled because `put` is; `none` only on fuel
exhaustion (a run where `contains_key` holds but `get` returns `None`
would raise in Python; on a well-formed map it cannot happen, and the
embedding also returns `none` there). -/
def find_mode_loop (fuel : Nat) : List K → HashMap K Nat → Option (HashMap K Nat)
  | [], m => some m
  | x :: rest, m =>
    if contains_key x m then
      match get x m with
      | none => none
      | some c =>
        match put fuel x (c + 1) m with
        | none => none
        | some m' => find_mode_loop fuel rest m'
    else
      match put fuel x 1 m with
      | none => none
      | some m' => find_mode_loop fuel rest m'

/-- `find_mode`: build the frequency map on `HashMap()` (Python default
capacity 11; the default hash `hash_function_1` lives in the repository's
missing `underlying-data-structures` module, so the hash is a parameter),
take the maximum frequency with one fold, then collect the keys attaining
it in a second. -/
def find_mode (fuel : Nat) (f : K → Nat) (da : List K) : Option (List K × Nat) :=
  match find_mode_loop fuel da (init 11 f) with
  | none => none
  | some m =>
    let map_da := get_keys_and_values m
    let frequency := map_da.foldl (fun a p => max a p.2) 0
    let mode_da := map_da.foldl
      (fun acc p => if p.2 = frequency then acc ++ [p.1] else acc) ([] : List K)
    some (mode_da, frequency)

end SC

/-! ### Concrete runs

Small concrete states over `K = V = Nat` with the identity hash, each shown
reachable by the constructors of `Reach`, used to evaluate the operations on
explicit inputs. -/

/-- Identity hash used by every concrete run. -/
def exHash : Nat → Nat := fun n => n

/-- Count of slots that are occupied or tombstoned — the spec's words for
the second summand of its bucket-accounting identity (every stored entry,
live or not). -/
def occupied_or_tombstoned_count {K V : Type} (s : OA.HashMap K V) : Nat :=
  s.buckets.countP (fun e => e.isSome)

/-- State after `put(0, 10)` on a fresh capacity-3 open-addressing map. -/
def exS1 : OA.HashMap Nat Nat :=
  ⟨[some ⟨0, 10, false⟩, none, none], 3, 1, exHash⟩

/-- … then `put(3, 20)` (key 3 probes to slot 0, then slot 1). -/
def exS2 : OA.HashMap Nat Nat :=
  ⟨[some ⟨0, 10, false⟩, some ⟨3, 20, false⟩, none], 3, 2, exHash⟩

/-- … then `remove(0)`: a tombstone at slot 0, key 3 live at slot 1. -/
def exTomb : OA.HashMap Nat Nat :=
  ⟨[some ⟨0, 10, true⟩, some ⟨3, 20, false⟩, none], 3, 1, exHash⟩

/-- … then `put(3, 99)`: the probe stops at the slot-0 tombstone and inserts
a second live entry for key 3 there, leaving the old one at slot 1. -/
def exDup : OA.HashMap Nat Nat :=
  ⟨[some ⟨3, 99, false⟩, some ⟨3, 20, false⟩, none], 3, 2, exHash⟩

/-- `resize_table(7)` on `exDup`: re-inserting the two key-3 pairs merges
them, so only the second survives. -/
def exResized : OA.HashMap Nat Nat :=
  ⟨[none, none, none, some ⟨3, 20, false⟩, none, none, none], 7, 1, exHash⟩

/-! Chaining-side concrete run: the `find_mode` example `[1, 2, 2, 3, 3, 3]`
on the default capacity-11 map, one `put` per element. -/

/-- Frequency map after processing `[1]`. -/
def scM1 : SC.HashMap Nat Nat :=
  ⟨[[], [(1, 1)], [], [], [], [], [], [], [], [], []], 11, 1, exHash⟩

/-- … after `[1, 2]`. -/
def scM2 : SC.HashMap Nat Nat :=
  ⟨[[], [(1, 1)], [(2, 1)], [], [], [], [], [], [], [], []], 11, 2, exHash⟩

/-- … after `[1, 2, 2]`. -/
def scM3 : SC.HashMap Nat Nat :=
  ⟨[[], [(1, 1)], [(2, 2)], [], [], [], [], [], [], [], []], 11, 2, exHash⟩

/-- … after `[1, 2, 2, 3]`. -/
def scM4 : SC.HashMap Nat Nat :=
  ⟨[[], [(1, 1)], [(2, 2)], [(3, 1)], [], [], [], [], [], [], []], 11, 3, exHash⟩

/-- … after `[1, 2, 2, 3, 3]`. -/
def scM5 : SC.HashMap Nat Nat :=
  ⟨[[], [(1, 1)], [(2, 2)], [(3, 2)], [], [], [], [], [], [], []], 11, 3, exHash⟩

/-- … after `[1, 2, 2, 3, 3, 3]`. -/
def scM6 : SC.HashMap Nat Nat :=
  ⟨[[], [(1, 1)], [(2, 2)], [(3, 3)], [], [], [], [], [], [], []], 11, 3, exHash⟩

/-! Concrete run for the load-factor analysis: three puts into a fresh
capacity-5 open-addressing map. -/

/-- After `put(1, 1)` on a fresh capacity-5 map. -/
def c5S1 : OA.HashMap Nat Nat :=
  ⟨[none, some ⟨1, 1, false⟩, none, none, none], 5, 1, exHash⟩

/-- … then `put(2, 2)`. -/
def c5S2 : OA.HashMap Nat Nat :=
  ⟨[none, some ⟨1, 1, false⟩, some ⟨2, 2, false⟩, none, none], 5, 2, exHash⟩

/-- … then `put(3, 3)`: the pre-write check saw load 2/5 < 1/2, so no
resize; the write brings the load to 3/5. -/
def c5S3 : OA.HashMap Nat Nat :=
  ⟨[none, some ⟨1, 1, false⟩, some ⟨2, 2, false⟩, some ⟨3, 3, false⟩, none], 5, 3, exHash⟩

/-! ## Theorems -/

/-! ### Fuel sufficiency and correctness of the primality engine -/

/-- Once the remaining fuel can push the factor past the square root, adding
fuel does not change `trialLoop`'s answer. -/
theorem trialLoop_congr (fuel fuel' : Nat) (c factor : Int)
    (h : c < (factor + 2 * fuel) ^ 2) (h' : c < (factor + 2 * fuel') ^ 2)
    (hfac : 0 ≤ factor) :
    trialLoop fuel c factor = trialLoop fuel' c factor := by
  induction fuel generalizing fuel' factor with
  | zero =>
    simp only [Nat.cast_zero, mul_zero, add_zero] at h
    cases fuel' with
    | zero => rfl
    | succ n =>
      simp only [trialLoop]
      rw [if_neg (by omega)]
  | succ n ih =>
    cases fuel' with
    | zero =>
      simp only [Nat.cast_zero, mul_zero, add_zero] at h'
      simp only [trialLoop]
      rw [if_neg (by omega)]
    | succ m =>
      simp only [trialLoop]
      by_cases hc : factor ^ 2 ≤ c
      · rw [if_pos hc, if_pos hc]
        by_cases hd : c % factor = 0
        · rw [if_pos hd, if_pos hd]
        · rw [if_neg hd, if_neg hd]
          apply ih
          · push_cast at h ⊢; nlinarith
          · push_cast at h' ⊢; nlinarith
          · omega
      · rw [if_neg hc, if_neg hc]

/-- `trialLoop` answers `true` exactly when no factor in the arithmetic
progression `factor, factor + 2, …` whose square is at most `c` divides `c`. -/
theorem trialLoop_eq_true_iff (fuel : Nat) (c factor : Int)
    (hfac : 3 ≤ factor) (hfuel : c < (factor + 2 * fuel) ^ 2) :
    trialLoop fuel c factor = true ↔
      ∀ g : Int, factor ≤ g → (∃ k : Nat, g = factor + 2 * k) → g ^ 2 ≤ c → ¬ (g ∣ c) := by
  induction fuel generalizing factor with
  | zero =>
    simp only [Nat.cast_zero, mul_zero, add_zero] at hfuel
    simp only [trialLoop, true_iff]
    intro g hg _ hg2 _
    nlinarith
  | succ n ih =>
    simp only [trialLoop]
    by_cases hc : factor ^ 2 ≤ c
    · rw [if_pos hc]
      by_cases hd : c % factor = 0
      · rw [if_pos hd]
        simp only [Bool.false_eq_true, false_iff, not_forall]
        refine ⟨factor, le_refl _, ⟨0, by simp⟩, hc, ?_⟩
        simp only [not_not]
        exact Int.dvd_of_emod_eq_zero hd
      · rw [if_neg hd]
        rw [ih (factor + 2) (by omega) (by push_cast at hfuel ⊢; nlinarith)]
        constructor
        · intro h g hg ⟨k, hk⟩ hg2 hdvd
          rcases Nat.eq_zero_or_pos k with rfl | hk0
          · simp at hk
            subst hk
            exact hd (Int.emod_eq_zero_of_dvd hdvd)
          · exact h g (by omega) ⟨k - 1, by omega⟩ hg2 hdvd
        · intro h g hg ⟨k, hk⟩ hg2 hdvd
          exact h g (by omega) ⟨k + 1, by push_cast; omega⟩ hg2 hdvd
    · rw [if_neg hc]
      simp only [true_iff]
      intro g hg ⟨k, hk⟩ hg2 hdvd
      nlinarith

/-- The source's `_is_prime` agrees with mathematical primality on every
integer that is at least 2. -/
theorem is_prime_iff_prime (c : Int) (hc : 2 ≤ c) :
    is_prime c = true ↔ Nat.Prime c.toNat := by
  rcases eq_or_lt_of_le hc with h2 | h2
  · rw [← h2]; decide
  rcases eq_or_lt_of_le (show (3:Int) ≤ c by omega) with h3 | h3
  · rw [← h3]; decide
  -- now c ≥ 4
  have hc4 : 4 ≤ c := by omega
  by_cases heven : c % 2 = 0
  · -- even numbers ≥ 4 are composite and is_prime returns false
    rw [is_prime, if_neg (by omega), if_pos (Or.inr heven)]
    simp only [Bool.false_eq_true, false_iff]
    intro hp
    have h2dvd : (2:Nat) ∣ c.toNat := by
      have : (2:Int) ∣ c := Int.dvd_of_emod_eq_zero heven
      omega
    have := (Nat.Prime.eq_one_or_self_of_dvd hp 2 h2dvd)
    omega
  · -- odd c ≥ 5
    have hc5 : 5 ≤ c := by omega
    have hcn : (c.toNat : Int) = c := Int.toNat_of_nonneg (by omega)
    rw [is_prime, if_neg (by omega), if_neg (by omega)]
    rw [trialLoop_eq_true_iff _ _ _ (by omega) (by push_cast [hcn]; nlinarith)]
    constructor
    · intro h
      by_contra hnp
      have hminfac := Nat.minFac_dvd c.toNat
      have hmf_prime : Nat.Prime (c.toNat.minFac) :=
        Nat.minFac_prime (by omega)
      have hmf_sq : c.toNat.minFac ^ 2 ≤ c.toNat :=
        Nat.minFac_sq_le_self (by omega) hnp
      have hmf_odd : c.toNat.minFac ≠ 2 := by
        intro habs
        have : (2:Nat) ∣ c.toNat := habs ▸ hminfac
        omega
      have hmf_odd2 : c.toNat.minFac % 2 = 1 :=
        Nat.odd_iff.mp (hmf_prime.odd_of_ne_two hmf_odd)
      have hmf3 : 3 ≤ c.toNat.minFac := by
        have := hmf_prime.two_le
        omega
      refine h (c.toNat.minFac) (by exact_mod_cast hmf3) ?_ ?_ ?_
      · obtain ⟨j, hj⟩ : ∃ j, c.toNat.minFac = 3 + 2 * j :=
          ⟨(c.toNat.minFac - 3) / 2, by omega⟩
        exact ⟨j, by push_cast [hj]; ring⟩
      · rw [← hcn]; exact_mod_cast hmf_sq
      · have : (c.toNat.minFac : Int) ∣ (c.toNat : Int) := Int.natCast_dvd_natCast.mpr hminfac
        rwa [hcn] at this
    · intro hp g hg hprog hg2 hdvd
      have hg0 : 0 < g := by omega
      have hgnat : (g.toNat : Int) = g := Int.toNat_of_nonneg (by omega)
      have hdvdnat : g.toNat ∣ c.toNat := by
        rw [← Int.natCast_dvd_natCast, hgnat,
          Int.toNat_of_nonneg (by omega : (0:Int) ≤ c)]
        exact hdvd
      have := (Nat.Prime.eq_one_or_self_of_dvd hp g.toNat hdvdnat)
      rcases this with h1 | hself
      · omega
      · have : g = c := by omega
        subst this
        nlinarith

/-- `findPrimeLoop` returns the input offset by twice the least viable step
count, provided the fuel covers it. -/
theorem findPrimeLoop_eq (fuel : Nat) (c : Int) (k : Nat)
    (hk : is_prime (c + 2 * k) = true)
    (hmin : ∀ j : Nat, j < k → is_prime (c + 2 * j) = false)
    (hfuel : k < fuel) :
    findPrimeLoop fuel c = c + 2 * k := by
  induction fuel generalizing c k with
  | zero => omega
  | succ n ih =>
    simp only [findPrimeLoop]
    rcases Nat.eq_zero_or_pos k with rfl | hk0
    · simp only [Nat.cast_zero, mul_zero, add_zero] at hk
      rw [if_pos hk]; simp
    · have h0 : is_prime c = false := by
        have := hmin 0 hk0
        simpa using this
      rw [if_neg (by simp [h0])]
      have hk1 : is_prime (c + 2 + 2 * ((k - 1 : Nat) : Int)) = true := by
        have he : c + 2 + 2 * ((k - 1 : Nat) : Int) = c + 2 * (k : Int) := by omega
        rw [he]; exact hk
      have hmin1 : ∀ j : Nat, j < k - 1 → is_prime (c + 2 + 2 * (j : Int)) = false := by
        intro j hj
        have he : c + 2 + 2 * (j : Int) = c + 2 * ((j + 1 : Nat) : Int) := by push_cast; ring
        rw [he]; exact hmin (j + 1) (by omega)
      rw [ih (c + 2) (k - 1) hk1 hmin1 (by omega)]
      omega

/-- For a non-negative argument, `_next_prime` returns exactly the least prime
that is at least `max c 3`.  (In particular it never returns 2: an even
request is bumped to odd before the loop, so the even prime is unreachable.) -/
theorem next_prime_eq_least (c : Int) (hc : 0 ≤ c) :
    ∃ q : Nat, next_prime c = (q : Int) ∧ Nat.Prime q ∧ max c.toNat 3 ≤ q ∧
      ∀ r : Nat, Nat.Prime r → max c.toNat 3 ≤ r → q ≤ r := by
  set m : Nat := max c.toNat 3 with hm
  have hm3 : 3 ≤ m := le_max_right _ _
  have hex : ∃ p : Nat, m ≤ p ∧ p.Prime := Nat.exists_infinite_primes m
  set q : Nat := Nat.find hex with hq
  obtain ⟨hqm, hqprime⟩ := Nat.find_spec hex
  have hqmin : ∀ r : Nat, r < q → ¬ (m ≤ r ∧ r.Prime) := fun r hr => Nat.find_min hex hr
  have hq3 : 3 ≤ q := le_trans hm3 hqm
  have hqodd : q % 2 = 1 := by
    have := hqprime.eq_one_or_self_of_dvd 2
    rcases Nat.even_or_odd q with he | ho
    · obtain ⟨t, ht⟩ := he
      have h2dvd : (2:Nat) ∣ q := ⟨t, by omega⟩
      rcases this h2dvd with h1 | h2 <;> omega
    · exact Nat.odd_iff.mp ho
  -- the odd starting candidate of the loop
  set c1 : Int := if c % 2 = 0 then c + 1 else c with hc1
  have hc1odd : c1 % 2 = 1 := by
    rw [hc1]; split <;> omega
  have hc1pos : 1 ≤ c1 := by rw [hc1]; split <;> omega
  have hc1le : c1 ≤ (q : Int) := by
    rcases le_or_lt c 2 with hcsmall | hcbig
    · have : c1 ≤ 3 := by rw [hc1]; split <;> omega
      omega
    · have hcq : c.toNat ≤ q := le_trans (le_max_left _ _) hqm
      have : (c : Int) ≤ (q : Int) := by omega
      rw [hc1]; split
      · rename_i heq
        have : (c:Int) ≠ (q:Int) := by
          intro habs
          omega
        omega
      · omega
  have hqc1 : ((q:Int) - c1) % 2 = 0 := by omega
  set k : Nat := ((q:Int) - c1).toNat / 2 with hk
  have hkq : (q : Int) = c1 + 2 * k := by omega
  have hkfuel : k < c1.toNat + 4 := by
    -- Bertrand: the least prime ≥ m is at most 2m, which bounds the step count
    obtain ⟨p, hpprime, hpm, hp2m⟩ := Nat.exists_prime_lt_and_le_two_mul m (by omega)
    have hqp : q ≤ p := by
      by_contra habs
      exact hqmin p (by omega) ⟨by omega, hpprime⟩
    have hq2m : q ≤ 2 * m := le_trans hqp hp2m
    have : m ≤ c.toNat + 3 := by omega
    omega
  have hstep : ∀ j : Nat, j < k → is_prime (c1 + 2 * j) = false := by
    intro j hj
    by_cases h1 : c1 + 2 * (j:Int) = 1
    · rw [h1]; decide
    · have hcand3 : 3 ≤ c1 + 2 * (j:Int) := by omega
      rw [Bool.eq_false_iff]
      intro habs
      have hprime := (is_prime_iff_prime _ (by omega)).mp habs
      refine hqmin (c1 + 2 * (j:Int)).toNat (by omega) ⟨?_, hprime⟩
      omega
  have hlast : is_prime (c1 + 2 * k) = true := by
    rw [← hkq]
    rw [is_prime_iff_prime _ (by omega)]
    simpa using hqprime
  refine ⟨q, ?_, hqprime, hqm, fun r hr hmr => ?_⟩
  · rw [next_prime]
    simp only [← hc1]
    rw [findPrimeLoop_eq _ _ k hlast hstep (by omega)]
    omega
  · by_contra habs
    exact hqmin r (by omega) ⟨hmr, hr⟩

/-- The capacity coercion performed by `resize_table` (`new_capacity` if
already `_is_prime`, else `_next_prime(new_capacity)`) yields a genuine prime
for every non-negative request. -/
theorem coerced_capacity_prime (x : Int) (hx : 0 ≤ x) :
    Nat.Prime ((if is_prime x then x else next_prime x).toNat) := by
  by_cases h : is_prime x = true
  · rw [if_pos h]
    rcases lt_or_ge x 2 with hsmall | hbig
    · interval_cases x <;> simp_all <;> revert h <;> decide
    · exact (is_prime_iff_prime x hbig).mp h
  · rw [if_neg (by simpa using h)]
    obtain ⟨q, hq, hqprime, _, _⟩ := next_prime_eq_least x hx
    rw [hq]
    simpa using hqprime

/-- `_next_prime` never returns less than a non-negative request. -/
theorem next_prime_ge (c : Int) (hc : 0 ≤ c) : c ≤ next_prime c := by
  obtain ⟨q, hq, _, hqm, _⟩ := next_prime_eq_least c hc
  omega

/-- On a non-negative request, `_next_prime` returns an odd number. -/
theorem next_prime_odd (c : Int) (hc : 0 ≤ c) : next_prime c % 2 = 1 := by
  obtain ⟨q, hq, hqprime, hqm, _⟩ := next_prime_eq_least c hc
  have hq3 : 3 ≤ q := le_trans (le_max_right _ _) hqm
  have : q % 2 = 1 := by
    rcases Nat.even_or_odd q with he | ho
    · obtain ⟨t, ht⟩ := he
      rcases hqprime.eq_one_or_self_of_dvd 2 ⟨t, by omega⟩ with h1 | h2 <;> omega
    · exact Nat.odd_iff.mp ho
  omega

theorem scanLoop_eq_some (p : Nat → Bool) (i steps j : Nat)
    (h : scanLoop p i steps = some j) :
    i ≤ j ∧ j < i + steps ∧ p j = true ∧ ∀ l, i ≤ l → l < j → p l = false := by
  induction steps generalizing i with
  | zero => simp [scanLoop] at h
  | succ n ih =>
    simp only [scanLoop] at h
    by_cases hp : p i
    · rw [if_pos hp] at h
      obtain rfl : i = j := by simpa using h
      exact ⟨le_refl _, by omega, hp, fun l h1 h2 => by omega⟩
    · rw [if_neg hp] at h
      obtain ⟨h1, h2, h3, h4⟩ := ih (i + 1) h
      refine ⟨by omega, by omega, h3, fun l hl1 hl2 => ?_⟩
      rcases Nat.eq_or_lt_of_le hl1 with rfl | hgt
      · simpa using hp
      · exact h4 l hgt hl2

theorem scanLoop_eq_none (p : Nat → Bool) (i steps : Nat)
    (h : scanLoop p i steps = none) :
    ∀ l, i ≤ l → l < i + steps → p l = false := by
  induction steps generalizing i with
  | zero => omega
  | succ n ih =>
    simp only [scanLoop] at h
    by_cases hp : p i
    · rw [if_pos hp] at h; simp at h
    · rw [if_neg hp] at h
      intro l hl1 hl2
      rcases Nat.eq_or_lt_of_le hl1 with rfl | hgt
      · simpa using hp
      · exact ih (i + 1) h l hgt (by omega)

theorem firstHit_eq_some (p : Nat → Bool) (n j : Nat) (h : firstHit p n = some j) :
    j < n ∧ p j = true ∧ ∀ l, l < j → p l = false := by
  obtain ⟨_, h2, h3, h4⟩ := scanLoop_eq_some p 0 n j h
  exact ⟨by omega, h3, fun l hl => h4 l (Nat.zero_le _) hl⟩

theorem firstHit_eq_none (p : Nat → Bool) (n : Nat) (h : firstHit p n = none) :
    ∀ l, l < n → p l = false := by
  intro l hl
  exact scanLoop_eq_none p 0 n h l (Nat.zero_le _) (by omega)

theorem firstHit_isSome_of_exists (p : Nat → Bool) (n : Nat)
    (h : ∃ i, i < n ∧ p i = true) : (firstHit p n).isSome := by
  rcases hfh : firstHit p n with _ | j
  · obtain ⟨i, hi, hpi⟩ := h
    have := firstHit_eq_none p n hfh i hi
    simp [this] at hpi
  · simp

/-- If the least witness below `n` is `j`, `firstHit` returns `j`. -/
theorem firstHit_eq_some_of_least (p : Nat → Bool) (n j : Nat)
    (hj : j < n) (hpj : p j = true) (hmin : ∀ l, l < j → p l = false) :
    firstHit p n = some j := by
  rcases hfh : firstHit p n with _ | i
  · have := firstHit_eq_none p n hfh j hj
    simp [this] at hpj
  · obtain ⟨hi, hpi, hminI⟩ := firstHit_eq_some p n i hfh
    rcases Nat.lt_trichotomy i j with hlt | rfl | hgt
    · have := hmin i hlt; simp [this] at hpi
    · rfl
    · have := hminI j hgt; simp [this] at hpj

/-! ## List counting helpers -/

theorem getD_set_self {α : Type _} (l : List α) (j : Nat) (a d : α) (hj : j < l.length) :
    (l.set j a).getD j d = a := by
  induction l generalizing j with
  | nil => simp at hj
  | cons x xs ih =>
    cases j with
    | zero => rfl
    | succ n => exact ih n (by simpa using hj)

theorem getD_set_ne {α : Type _} (l : List α) (i j : Nat) (a d : α) (h : i ≠ j) :
    (l.set i a).getD j d = l.getD j d := by
  induction l generalizing i j with
  | nil => simp
  | cons x xs ih =>
    cases i with
    | zero =>
      cases j with
      | zero => omega
      | succ m => rfl
    | succ n =>
      cases j with
      | zero => rfl
      | succ m => exact ih n m (by omega)

theorem getD_mem {α : Type _} (l : List α) (j : Nat) (d : α) (hj : j < l.length) :
    l.getD j d ∈ l := by
  induction l generalizing j with
  | nil => simp at hj
  | cons x xs ih =>
    cases j with
    | zero => simp
    | succ n => exact List.mem_cons_of_mem _ (ih n (by simpa using hj))

theorem countP_set_eq {α : Type _} (p : α → Bool) (l : List α) (j : Nat) (a d : α)
    (hj : j < l.length) :
    (l.set j a).countP p + (if p (l.getD j d) then 1 else 0)
      = l.countP p + (if p a then 1 else 0) := by
  induction l generalizing j with
  | nil => simp at hj
  | cons x xs ih =>
    cases j with
    | zero =>
      simp only [List.set, List.countP_cons, List.getD_cons_zero]
      by_cases hpa : p a <;> by_cases hpx : p x <;> simp [hpa, hpx]
    | succ n =>
      simp only [List.set, List.countP_cons, List.getD_cons_succ]
      have := ih n (by simpa using hj)
      simp only [List.getD, List.get?_eq_getElem?] at this ⊢
      by_cases hpx : p x <;> simp [hpx] <;> omega

theorem countP_pos_of_getD {α : Type _} (p : α → Bool) (l : List α) (j : Nat) (d : α)
    (hj : j < l.length) (hp : p (l.getD j d) = true) : 1 ≤ l.countP p := by
  have hmem := getD_mem l j d hj
  have : l.getD j d ∈ l.filter p := List.mem_filter.mpr ⟨hmem, hp⟩
  have : 0 < (l.filter p).length := List.length_pos.mpr (List.ne_nil_of_mem this)
  rwa [← l.countP_eq_length_filter p] at this

theorem countP_add_countP_not {α : Type _} (p : α → Bool) (l : List α) :
    l.countP p + l.countP (fun a => !p a) = l.length := by
  induction l with
  | nil => rfl
  | cons x xs ih =>
    simp only [List.countP_cons, List.length_cons]
    by_cases hpx : p x <;> simp [hpx] <;> omega

theorem length_filterMap_eq_countP {α β : Type _} (f : α → Option β) (l : List α) :
    (l.filterMap f).length = l.countP (fun a => (f a).isSome) := by
  induction l with
  | nil => rfl
  | cons x xs ih =>
    cases hfx : f x <;> simp [List.filterMap_cons, hfx, List.countP_cons, ih]

namespace OA

variable {K V : Type} [DecidableEq K]

/-! ### Unfolding lemmas for the fuelled operations -/

theorem put_succ (fuel : Nat) (k : K) (v : V) (s : HashMap K V) :
    put (fuel + 1) k v s = (preResize fuel s).map (insertPhase k v) := by
  by_cases hl : (1:ℚ)/2 ≤ table_load s
  · simp only [put, preResize, if_pos hl]
    cases resize_table fuel (next_prime (2 * (s.capacity : Int))) s <;> rfl
  · simp only [put, preResize, if_neg hl]
    rfl

theorem put_zero (k : K) (v : V) (s : HashMap K V) : put 0 k v s = none := by
  simp [put]

theorem resize_succ (fuel : Nat) (x : Int) (s : HashMap K V) :
    resize_table (fuel + 1) x s =
      if x < (s.size : Int) then some s else resizeRebuild fuel x s := by
  simp only [resize_table, resizeRebuild]

theorem resize_zero (x : Int) (s : HashMap K V) : resize_table 0 x s = none := by
  simp [resize_table]

theorem putAll_nil (fuel : Nat) (t : HashMap K V) : putAll fuel [] t = some t := by
  simp [putAll]

theorem putAll_cons (fuel : Nat) (kv : K × V) (rest : List (K × V)) (t : HashMap K V) :
    putAll fuel (kv :: rest) t =
      match put fuel kv.1 kv.2 t with
      | none => none
      | some t' => putAll fuel rest t' := by
  simp [putAll]

/-! ### Structural lemmas -/

theorem probeIndex_lt (s : HashMap K V) (k : K) (i : Nat) (h : 0 < s.capacity) :
    probeIndex s k i < s.capacity := Nat.mod_lt _ h

theorem slotLive_eq_not_available (o : Option (HashEntry K V)) :
    slotLive o = !slotAvailable o := by
  cases o <;> simp [slotLive, slotAvailable]

theorem slotAvailable_false_elim (o : Option (HashEntry K V)) (h : slotAvailable o = false) :
    ∃ e, o = some e ∧ e.is_tombstone = false := by
  cases o with
  | none => simp [slotAvailable] at h
  | some e => exact ⟨e, rfl, by simpa [slotAvailable] using h⟩

theorem slotLiveKey_elim (k : K) (o : Option (HashEntry K V)) (h : slotLiveKey k o = true) :
    ∃ e, o = some e ∧ e.is_tombstone = false ∧ e.key = k := by
  cases o with
  | none => simp [slotLiveKey] at h
  | some e =>
    simp only [slotLiveKey, Bool.and_eq_true, Bool.not_eq_true', decide_eq_true_eq] at h
    exact ⟨e, rfl, h.1, h.2⟩

theorem insertPhase_capacity (k : K) (v : V) (s : HashMap K V) :
    (insertPhase k v s).capacity = s.capacity := by
  unfold insertPhase
  cases putProbe k s with
  | none => rfl
  | some i => by_cases h : slotAvailable (slotAt s (probeIndex s k i)) <;> simp [h]

theorem insertPhase_hash (k : K) (v : V) (s : HashMap K V) :
    (insertPhase k v s).hash_function = s.hash_function := by
  unfold insertPhase
  cases putProbe k s with
  | none => rfl
  | some i => by_cases h : slotAvailable (slotAt s (probeIndex s k i)) <;> simp [h]

theorem insertPhase_size_le (k : K) (v : V) (s : HashMap K V) :
    (insertPhase k v s).size ≤ s.size + 1 := by
  unfold insertPhase
  cases putProbe k s with
  | none => exact Nat.le_succ _
  | some i => by_cases h : slotAvailable (slotAt s (probeIndex s k i)) <;> simp [h]

theorem insertPhase_len (k : K) (v : V) (s : HashMap K V) :
    (insertPhase k v s).buckets.length = s.buckets.length := by
  unfold insertPhase
  cases putProbe k s with
  | none => rfl
  | some i =>
    by_cases h : slotAvailable (slotAt s (probeIndex s k i)) <;>
      simp [h, List.length_set]

/-! ### Invariant preservation -/

theorem countP_replicate_none_live (n : Nat) :
    (List.replicate n (none : Option (HashEntry K V))).countP slotLive = 0 := by
  rw [List.countP_eq_zero.mpr]
  intro o ho
  rw [List.eq_of_mem_replicate ho]
  simp [slotLive]

theorem init_Inv (c : Int) (hc : 0 ≤ c) (f : K → Nat) :
    Inv (init (V := V) c f) := by
  obtain ⟨q, hq, hqprime, hqm, _⟩ := next_prime_eq_least c hc
  refine ⟨by simp [init], ?_, ?_⟩
  · show (0 : Nat) = liveCount _
    rw [liveCount]
    exact (countP_replicate_none_live _).symm
  · show Nat.Prime (next_prime c).toNat
    rw [hq]
    simpa using hqprime

/-- The bucket-count identity for a single slot write. -/
theorem liveCount_set (s : HashMap K V) (j : Nat) (o : Option (HashEntry K V))
    (hj : j < s.buckets.length) :
    (s.buckets.set j o).countP slotLive + (if slotLive (slotAt s j) then 1 else 0)
      = s.buckets.countP slotLive + (if slotLive o then 1 else 0) :=
  countP_set_eq slotLive s.buckets j o none hj

/-! Branch characterisations of the probe-and-write phase and of `remove`. -/

theorem insertPhase_eq_of_none (k : K) (v : V) (s : HashMap K V)
    (h : putProbe k s = none) : insertPhase k v s = s := by
  simp [insertPhase, h]

theorem insertPhase_eq_of_avail (k : K) (v : V) (s : HashMap K V) (i : Nat)
    (h : putProbe k s = some i)
    (hav : slotAvailable (slotAt s (probeIndex s k i)) = true) :
    insertPhase k v s =
      { s with buckets := s.buckets.set (probeIndex s k i) (some ⟨k, v, false⟩),
               size := s.size + 1 } := by
  simp [insertPhase, h, hav]

theorem insertPhase_eq_of_match (k : K) (v : V) (s : HashMap K V) (i : Nat)
    (h : putProbe k s = some i)
    (hav : slotAvailable (slotAt s (probeIndex s k i)) = false) :
    insertPhase k v s =
      { s with buckets := s.buckets.set (probeIndex s k i) ((slotAt s (probeIndex s k i)).map (fun e => { e with value := v })) } := by
  simp [insertPhase, h, hav]

theorem remove_eq_of_none (k : K) (s : HashMap K V)
    (h : findProbe k s = none) : remove k s = s := by
  simp [remove, h]

theorem remove_eq_of_some (k : K) (s : HashMap K V) (i : Nat)
    (h : findProbe k s = some i) :
    remove k s =
      { s with buckets := s.buckets.set (probeIndex s k i) ((slotAt s (probeIndex s k i)).map (fun e => { e with is_tombstone := true })),
               size := s.size - 1 } := by
  simp [remove, h]

theorem insertPhase_Inv (k : K) (v : V) (s : HashMap K V) (hInv : Inv s) :
    Inv (insertPhase k v s) := by
  cases hp : putProbe k s with
  | none => rw [insertPhase_eq_of_none k v s hp]; exact hInv
  | some i =>
    have hcap : 0 < s.capacity := hInv.cap_prime.pos
    have hjlt : probeIndex s k i < s.buckets.length := by
      rw [hInv.len_eq]; exact probeIndex_lt s k i hcap
    have hsize := hInv.size_eq
    rw [liveCount] at hsize
    by_cases hav : slotAvailable (slotAt s (probeIndex s k i)) = true
    · rw [insertPhase_eq_of_avail k v s i hp hav]
      refine ⟨by simpa [List.length_set] using hInv.len_eq, ?_, hInv.cap_prime⟩
      show s.size + 1 = List.countP slotLive (s.buckets.set (probeIndex s k i) (some ⟨k, v, false⟩))
      have hcnt := liveCount_set s (probeIndex s k i) (some ⟨k, v, false⟩) hjlt
      have hold : slotLive (slotAt s (probeIndex s k i)) = false := by
        rw [slotLive_eq_not_available, hav]
        rfl
      have hnew : slotLive (some (⟨k, v, false⟩ : HashEntry K V)) = true := rfl
      rw [hold, hnew] at hcnt
      simp at hcnt
      omega
    · have hav' : slotAvailable (slotAt s (probeIndex s k i)) = false := by
        simpa using hav
      rw [insertPhase_eq_of_match k v s i hp hav']
      obtain ⟨e, he, htomb⟩ := slotAvailable_false_elim _ hav'
      refine ⟨by simpa [List.length_set] using hInv.len_eq, ?_, hInv.cap_prime⟩
      show s.size = List.countP slotLive (s.buckets.set (probeIndex s k i)
        ((slotAt s (probeIndex s k i)).map (fun e => { e with value := v })))
      have hcnt := liveCount_set s (probeIndex s k i)
        ((slotAt s (probeIndex s k i)).map (fun e => { e with value := v })) hjlt
      have hold : slotLive (slotAt s (probeIndex s k i)) = true := by
        rw [he]; simp [slotLive, htomb]
      have hnew : slotLive ((slotAt s (probeIndex s k i)).map (fun e => { e with value := v })) = true := by
        rw [he]; simp [slotLive, htomb]
      rw [hold, hnew] at hcnt
      simp at hcnt
      omega

theorem remove_Inv (k : K) (s : HashMap K V) (hInv : Inv s) :
    Inv (remove k s) := by
  cases hf : findProbe k s with
  | none => rw [remove_eq_of_none k s hf]; exact hInv
  | some i =>
    have hcap : 0 < s.capacity := hInv.cap_prime.pos
    have hjlt : probeIndex s k i < s.buckets.length := by
      rw [hInv.len_eq]; exact probeIndex_lt s k i hcap
    have hsize := hInv.size_eq
    rw [liveCount] at hsize
    obtain ⟨hi, hpi, _⟩ := firstHit_eq_some _ _ _ hf
    obtain ⟨e, he, htomb, hkey⟩ := slotLiveKey_elim k _ hpi
    rw [remove_eq_of_some k s i hf]
    refine ⟨by simpa [List.length_set] using hInv.len_eq, ?_, hInv.cap_prime⟩
    show s.size - 1 = List.countP slotLive (s.buckets.set (probeIndex s k i)
      ((slotAt s (probeIndex s k i)).map (fun e => { e with is_tombstone := true })))
    have hcnt := liveCount_set s (probeIndex s k i)
      ((slotAt s (probeIndex s k i)).map (fun e => { e with is_tombstone := true })) hjlt
    have hold : slotLive (slotAt s (probeIndex s k i)) = true := by
      rw [he]; simp [slotLive, htomb]
    have hnew : slotLive ((slotAt s (probeIndex s k i)).map (fun e => { e with is_tombstone := true })) = false := by
      rw [he]; simp [slotLive]
    have hpos : 1 ≤ s.buckets.countP slotLive :=
      countP_pos_of_getD _ _ _ none hjlt hold
    rw [hold, hnew] at hcnt
    simp at hcnt
    omega

theorem clear_Inv (s : HashMap K V) (hInv : Inv s) : Inv (clear s) := by
  refine ⟨by simp [clear], ?_, hInv.cap_prime⟩
  show (0 : Nat) = liveCount _
  rw [liveCount]
  exact (countP_replicate_none_live _).symm

theorem freshMap_Inv (x : Int) (s : HashMap K V) (hx : 0 ≤ x) :
    Inv (freshMap x s) := by
  refine ⟨by simp [freshMap], ?_, ?_⟩
  · show (0 : Nat) = liveCount _
    rw [liveCount]
    exact (countP_replicate_none_live _).symm
  · show Nat.Prime (coerceCapacity x)
    exact coerced_capacity_prime x hx

/-- Fuelled invariant preservation for `put`, `resize_table` and the
re-insertion loop, by mutual induction on the fuel. -/
theorem fuel_Inv (fuel : Nat) :
    (∀ (k : K) (v : V) (s s' : HashMap K V), Inv s → put fuel k v s = some s' → Inv s') ∧
    (∀ (x : Int) (s s' : HashMap K V), Inv s → resize_table fuel x s = some s' → Inv s') ∧
    (∀ (pairs : List (K × V)) (t t' : HashMap K V), Inv t → putAll fuel pairs t = some t' → Inv t') := by
  induction fuel with
  | zero =>
    refine ⟨?_, ?_, ?_⟩
    · intro k v s s' _ h; rw [put_zero] at h; cases h
    · intro x s s' _ h; rw [resize_zero] at h; cases h
    · intro pairs t t' hInv h
      cases pairs with
      | nil => rw [putAll_nil] at h; cases h; exact hInv
      | cons kv rest =>
        rw [putAll_cons, put_zero] at h
        cases h
  | succ n ih =>
    have hput : ∀ (k : K) (v : V) (s s' : HashMap K V), Inv s → put (n + 1) k v s = some s' → Inv s' := by
      intro k v s s' hInv h
      rw [put_succ] at h
      cases hpre : preResize n s with
      | none => rw [hpre] at h; cases h
      | some s1 =>
        rw [hpre] at h
        have hs1 : Inv s1 := by
          rw [preResize] at hpre
          split at hpre
          · exact ih.2.1 _ _ _ hInv hpre
          · cases hpre; exact hInv
        simp only [Option.map_some'] at h
        cases h
        exact insertPhase_Inv _ _ _ hs1
    have hresize : ∀ (x : Int) (s s' : HashMap K V), Inv s → resize_table (n + 1) x s = some s' → Inv s' := by
      intro x s s' hInv h
      rw [resize_succ] at h
      split at h
      · cases h; exact hInv
      · rename_i hgate
        have hx : 0 ≤ x := by omega
        rw [resizeRebuild] at h
        exact ih.2.2 _ _ _ (freshMap_Inv x s hx) h
    refine ⟨hput, hresize, ?_⟩
    intro pairs
    induction pairs with
    | nil =>
      intro t t' hInv h
      rw [putAll_nil] at h; cases h; exact hInv
    | cons kv rest ihp =>
      intro t t' hInv h
      rw [putAll_cons] at h
      cases hstep : put (n + 1) kv.1 kv.2 t with
      | none => rw [hstep] at h; cases h
      | some t1 =>
        rw [hstep] at h
        exact ihp t1 t' (hput _ _ _ _ hInv hstep) h

/-! ### Load-factor arithmetic -/

theorem table_load_ge_half_iff (s : HashMap K V) (h : 0 < s.capacity) :
    ((1:ℚ)/2 ≤ table_load s) ↔ s.capacity ≤ 2 * s.size := by
  rw [table_load, div_le_div_iff₀ (by norm_num) (by exact_mod_cast h)]
  constructor
  · intro hle
    have : (s.capacity : ℚ) ≤ 2 * (s.size : ℚ) := by linarith
    exact_mod_cast this
  · intro hle
    have : (s.capacity : ℚ) ≤ 2 * (s.size : ℚ) := by exact_mod_cast hle
    linarith

theorem no_trigger_of_small (s : HashMap K V)
    (h : 2 * s.size < s.capacity ∨ s.capacity = 0) :
    ¬ ((1:ℚ)/2 ≤ table_load s) := by
  rcases h with h | h
  · have hcap : 0 < s.capacity := by omega
    rw [table_load_ge_half_iff s hcap]
    omega
  · rw [table_load, h]
    norm_num

theorem put_no_trigger (fuel : Nat) (k : K) (v : V) (s : HashMap K V)
    (h : ¬ ((1:ℚ)/2 ≤ table_load s)) :
    put (fuel + 1) k v s = some (insertPhase k v s) := by
  rw [put_succ, preResize, if_neg h]
  rfl

theorem liveCount_le_capacity (s : HashMap K V) (hlen : s.buckets.length = s.capacity) :
    liveCount s ≤ s.capacity := by
  rw [liveCount, ← hlen]
  exact List.countP_le_length _

/-- Along a re-insertion run whose pair count keeps the load strictly below
one half at every step, no nested resize fires: capacities, hash function and
array length are untouched and the size grows by at most the number of
pairs. -/
theorem putAll_bound (fuel : Nat) (pairs : List (K × V)) (t t' : HashMap K V)
    (h : putAll fuel pairs t = some t')
    (hb : 2 * (t.size + pairs.length) ≤ t.capacity + 1) :
    t'.size ≤ t.size + pairs.length ∧ t'.capacity = t.capacity ∧
      t'.hash_function = t.hash_function ∧ t'.buckets.length = t.buckets.length := by
  induction pairs generalizing t with
  | nil =>
    rw [putAll_nil] at h
    cases h
    exact ⟨le_refl _, rfl, rfl, rfl⟩
  | cons kv rest ih =>
    rw [putAll_cons] at h
    cases hstep : put fuel kv.1 kv.2 t with
    | none => rw [hstep] at h; cases h
    | some t1 =>
      rw [hstep] at h
      obtain ⟨g, rfl⟩ : ∃ g, fuel = g + 1 := by
        cases fuel with
        | zero => rw [put_zero] at hstep; cases hstep
        | succ g => exact ⟨g, rfl⟩
      have hnt : ¬ ((1:ℚ)/2 ≤ table_load t) := by
        apply no_trigger_of_small
        simp only [List.length_cons] at hb
        omega
      rw [put_no_trigger g kv.1 kv.2 t hnt] at hstep
      cases hstep
      have hsz := insertPhase_size_le kv.1 kv.2 t
      have hcap := insertPhase_capacity kv.1 kv.2 t
      have hhash := insertPhase_hash kv.1 kv.2 t
      have hlen := insertPhase_len kv.1 kv.2 t
      obtain ⟨h1, h2, h3, h4⟩ := ih (insertPhase kv.1 kv.2 t) h
        (by simp only [List.length_cons] at hb; omega)
      refine ⟨?_, by omega, by rw [h3, hhash], by rw [h4, hlen]⟩
      simp only [List.length_cons]
      omega

theorem kvs_length (s : HashMap K V) :
    (get_keys_and_values s).length = liveCount s := by
  rw [get_keys_and_values, liveCount, length_filterMap_eq_countP]
  apply List.countP_congr
  intro o _
  cases o with
  | none => rfl
  | some e => cases he : e.is_tombstone <;> simp [slotLive, he]

/-- The pre-resize inside `put` (to `_next_prime(2 * capacity)`) leaves the
load factor strictly below one half: the rebuilt capacity is an odd prime at
least twice the old one, while at most the old live count gets re-inserted. -/
theorem resize_double_load (s : HashMap K V) (hInv : Inv s) (g : Nat)
    (s1 : HashMap K V)
    (h : resize_table g (next_prime (2 * (s.capacity : Int))) s = some s1) :
    2 * s1.size < s1.capacity := by
  obtain ⟨g', rfl⟩ : ∃ g', g = g' + 1 := by
    cases g with
    | zero => rw [resize_zero] at h; cases h
    | succ g' => exact ⟨g', rfl⟩
  have hx0 : (0:Int) ≤ 2 * (s.capacity : Int) := by positivity
  obtain ⟨q, hq, hqprime, hqm, _⟩ := next_prime_eq_least (2 * (s.capacity : Int)) hx0
  have hqodd : (next_prime (2 * (s.capacity : Int))) % 2 = 1 := next_prime_odd _ hx0
  have hq2cap : 2 * s.capacity ≤ q := by
    have : ((2 * (s.capacity : Int)).toNat) = 2 * s.capacity := by omega
    omega
  have hsizecap : s.size ≤ s.capacity := by
    rw [hInv.size_eq]
    exact liveCount_le_capacity s hInv.len_eq
  rw [resize_succ] at h
  split at h
  · rename_i hgate
    omega
  · rw [resizeRebuild] at h
    have hisp : is_prime (next_prime (2 * (s.capacity : Int))) = true := by
      rw [is_prime_iff_prime _ (by omega)]
      rw [hq]
      simpa using hqprime
    have hfreshcap : (freshMap (next_prime (2 * (s.capacity : Int))) s).capacity = q := by
      simp only [freshMap, coerceCapacity, hisp, if_true]
      omega
    have hfreshsize : (freshMap (next_prime (2 * (s.capacity : Int))) s).size = 0 := rfl
    have hn : (get_keys_and_values s).length = s.size := by
      rw [kvs_length, ← hInv.size_eq]
    obtain ⟨h1, h2, _, _⟩ := putAll_bound g' (get_keys_and_values s) _ s1 h
      (by rw [hfreshcap, hfreshsize, hn]; omega)
    rw [hfreshcap] at h2
    rw [hfreshsize, hn] at h1
    have hqodd' : q % 2 = 1 := by omega
    omega

/-- After the load check and conditional resize at the top of `put`, the load
factor is strictly below one half. -/
theorem preResize_load (fuel : Nat) (s s1 : HashMap K V) (hInv : Inv s)
    (h : preResize fuel s = some s1) : 2 * s1.size < s1.capacity := by
  rw [preResize] at h
  split at h
  · exact resize_double_load s hInv fuel s1 h
  · cases h
    rename_i hnl
    have hcap : 0 < s.capacity := hInv.cap_prime.pos
    rw [table_load_ge_half_iff s hcap] at hnl
    omega

theorem preResize_Inv (fuel : Nat) (s s1 : HashMap K V) (hInv : Inv s)
    (h : preResize fuel s = some s1) : Inv s1 := by
  rw [preResize] at h
  split at h
  · exact (fuel_Inv fuel).2.1 _ _ _ hInv h
  · cases h; exact hInv

/-! ### Quadratic-probe coverage

For a prime capacity `p` the probe positions `(h + i^2) % p`, `i < p`, visit
at least `(p + 1) / 2` distinct slots (squares modulo a prime have fibres of
size at most two).  With the load strictly below one half, fewer than
`(p + 1) / 2` slots are live, so some probed slot holds no live entry and the
put loop's termination-by-write is guaranteed. -/

theorem sq_image_card (p : Nat) [NeZero p] (hp : Nat.Prime p) :
    (p + 1) / 2 ≤ (Finset.univ.image (fun x : ZMod p => x ^ 2)).card := by
  haveI : Fact p.Prime := ⟨hp⟩
  have hcard : Fintype.card (ZMod p) = p := ZMod.card p
  have hle : Fintype.card (ZMod p) ≤ 2 * (Finset.univ.image (fun x : ZMod p => x ^ 2)).card := by
    rw [← Finset.card_univ]
    apply Finset.card_le_mul_card_image
    intro a _
    by_cases hex : ∃ x0 : ZMod p, x0 ^ 2 = a
    · obtain ⟨x0, hx0⟩ := hex
      have hsub : (Finset.univ.filter (fun x : ZMod p => x ^ 2 = a)) ⊆ {x0, -x0} := by
        intro x hx
        simp only [Finset.mem_filter, Finset.mem_univ, true_and] at hx
        have hzero : (x - x0) * (x + x0) = 0 := by
          have heq : x ^ 2 = x0 ^ 2 := by rw [hx, hx0]
          linear_combination heq
        rcases mul_eq_zero.mp hzero with h0 | h0
        · have : x = x0 := by linear_combination h0
          simp [this]
        · have : x = -x0 := by linear_combination h0
          simp [this]
      calc (Finset.univ.filter (fun x : ZMod p => x ^ 2 = a)).card
          ≤ ({x0, -x0} : Finset (ZMod p)).card := Finset.card_le_card hsub
        _ ≤ 2 := (Finset.card_insert_le x0 {-x0}).trans (by simp)
    · have : (Finset.univ.filter (fun x : ZMod p => x ^ 2 = a)) = ∅ := by
        rw [Finset.filter_eq_empty_iff]
        intro x _
        exact fun habs => hex ⟨x, habs⟩
      rw [this]
      simp
  rw [hcard] at hle
  omega

theorem probe_image_card (s : HashMap K V) (k : K) (hp : Nat.Prime s.capacity) :
    (s.capacity + 1) / 2 ≤ ((Finset.range s.capacity).image (fun i => probeIndex s k i)).card := by
  set p := s.capacity with hpdef
  haveI : NeZero p := ⟨hp.pos.ne'⟩
  set h0 : ZMod p := (s.hash_function k : ZMod p) with hh0
  -- each probe position is the value of h0 + i^2 in ZMod p
  have hval : ∀ i : Nat, probeIndex s k i = (h0 + (i : ZMod p) ^ 2).val := by
    intro i
    have h1 : ((s.hash_function k % p + i ^ 2 : Nat) : ZMod p) = h0 + (i : ZMod p) ^ 2 := by
      push_cast
      congr 1
      exact (ZMod.natCast_eq_natCast_iff _ _ _).mpr (Nat.mod_modEq _ p)
    rw [probeIndex, ← hpdef, ← ZMod.val_natCast, h1]
  -- the Nat-valued probe image is the val-image of the ZMod image
  have himg : (Finset.range p).image (fun i => probeIndex s k i)
      = ((Finset.range p).image (fun i : Nat => h0 + (i : ZMod p) ^ 2)).image ZMod.val := by
    rw [Finset.image_image]
    apply Finset.image_congr
    intro i _
    exact hval i
  -- casting range p onto ZMod p is surjective
  have hcastimg : (Finset.range p).image (fun i : Nat => (i : ZMod p)) = Finset.univ := by
    apply Finset.eq_univ_of_forall
    intro x
    rw [Finset.mem_image]
    exact ⟨x.val, Finset.mem_range.mpr (ZMod.val_lt x), ZMod.natCast_rightInverse x⟩
  have himg2 : (Finset.range p).image (fun i : Nat => h0 + (i : ZMod p) ^ 2)
      = Finset.univ.image (fun x : ZMod p => h0 + x ^ 2) := by
    rw [← hcastimg, Finset.image_image]
    rfl
  have himg3 : Finset.univ.image (fun x : ZMod p => h0 + x ^ 2)
      = (Finset.univ.image (fun x : ZMod p => x ^ 2)).image (fun y => h0 + y) := by
    rw [Finset.image_image]
    rfl
  rw [himg, himg2, himg3,
    Finset.card_image_of_injective _ (ZMod.val_injective p),
    Finset.card_image_of_injective _ (add_right_injective h0)]
  exact sq_image_card p hp

theorem getD_append_length {α : Type _} (l : List α) (x d : α) :
    (l ++ [x]).getD l.length d = x := by
  induction l with
  | nil => rfl
  | cons y ys ih => simp only [List.cons_append, List.length_cons, List.getD_cons_succ]; exact ih

theorem getD_append_lt {α : Type _} (l : List α) (x d : α) (j : Nat) (h : j < l.length) :
    (l ++ [x]).getD j d = l.getD j d := by
  induction l generalizing j with
  | nil => simp at h
  | cons y ys ih =>
    cases j with
    | zero => rfl
    | succ n => simpa using ih n (by simpa using h)

theorem countP_eq_card_filter_range {α : Type _} (l : List α) (q : α → Bool) (d : α) :
    l.countP q = ((Finset.range l.length).filter (fun j => q (l.getD j d))).card := by
  induction l using List.reverseRecOn with
  | nil => rfl
  | append_singleton l x ih =>
    have hcong : (Finset.range l.length).filter (fun j => q ((l ++ [x]).getD j d))
        = (Finset.range l.length).filter (fun j => q (l.getD j d)) := by
      apply Finset.filter_congr
      intro j hj
      rw [getD_append_lt l x d j (Finset.mem_range.mp hj)]
    have hx : (l ++ [x]).getD l.length d = x := getD_append_length l x d
    rw [List.countP_append, List.length_append]
    simp only [List.length_singleton]
    rw [Finset.range_succ, Finset.filter_insert, hx, hcong, ih]
    by_cases hq : q x
    · rw [if_pos hq, Finset.card_insert_of_not_mem (by simp)]
      simp [List.countP_cons, hq]
    · rw [if_neg hq]
      simp [List.countP_cons, hq]

/-- With a prime capacity and load under one half, some probe position in the
first `capacity` probes holds no live entry. -/
theorem exists_nonlive_probe (s : HashMap K V) (k : K)
    (hlen : s.buckets.length = s.capacity) (hp : Nat.Prime s.capacity)
    (hload : 2 * liveCount s < s.capacity) :
    ∃ i, i < s.capacity ∧ slotLive (slotAt s (probeIndex s k i)) = false := by
  by_contra habs
  push_neg at habs
  have hall : ∀ i, i < s.capacity → slotLive (slotAt s (probeIndex s k i)) = true := by
    intro i hi
    have := habs i hi
    cases hsl : slotLive (slotAt s (probeIndex s k i)) with
    | false => exact absurd hsl this
    | true => rfl
  set A := (Finset.range s.capacity).image (fun i => probeIndex s k i) with hA
  set L := (Finset.range s.capacity).filter
    (fun j => slotLive (s.buckets.getD j none)) with hL
  have hAL : A ⊆ L := by
    intro j hj
    rw [hA, Finset.mem_image] at hj
    obtain ⟨i, hi, rfl⟩ := hj
    rw [hL, Finset.mem_filter]
    refine ⟨Finset.mem_range.mpr (probeIndex_lt s k i hp.pos), ?_⟩
    exact hall i (Finset.mem_range.mp hi)
  have hcardL : L.card = liveCount s := by
    rw [hL, liveCount, countP_eq_card_filter_range s.buckets slotLive none, hlen]
  have hcardA : (s.capacity + 1) / 2 ≤ A.card := probe_image_card s k hp
  have := Finset.card_le_card hAL
  omega

/-! ### After a successful write, `get` and `contains_key` find the key -/

theorem probeIndex_congr (s s' : HashMap K V) (k : K)
    (hcap : s'.capacity = s.capacity) (hhash : s'.hash_function = s.hash_function) :
    probeIndex s' k = probeIndex s k := by
  funext i
  rw [probeIndex, probeIndex, hcap, hhash]

theorem putProbe_isSome (s : HashMap K V) (k : K)
    (hlen : s.buckets.length = s.capacity) (hp : Nat.Prime s.capacity)
    (hload : 2 * liveCount s < s.capacity) :
    ∃ i, putProbe k s = some i := by
  obtain ⟨i, hi, hnl⟩ := exists_nonlive_probe s k hlen hp hload
  have hav : slotAvailable (slotAt s (probeIndex s k i)) = true := by
    have := slotLive_eq_not_available (slotAt s (probeIndex s k i))
    rw [hnl] at this
    cases hsa : slotAvailable (slotAt s (probeIndex s k i)) with
    | false => rw [hsa] at this; simp at this
    | true => rfl
  have := firstHit_isSome_of_exists
    (fun l => slotAvailable (slotAt s (probeIndex s k l)) ||
      slotLiveKey k (slotAt s (probeIndex s k l))) s.capacity
    ⟨i, hi, by simp [hav]⟩
  rw [← putProbe] at this
  exact Option.isSome_iff_exists.mp this

/-- After the probe-and-write phase found a slot, `get` returns the written
value and `contains_key` holds: the probes before the write position hold
live entries with other keys (otherwise the write would have happened
earlier), so the lookup scan stops exactly at the written slot. -/
theorem insertPhase_found (k : K) (v : V) (s : HashMap K V) (i : Nat)
    (hp : putProbe k s = some i)
    (hcap : 0 < s.capacity) (hlen : s.buckets.length = s.capacity) :
    get k (insertPhase k v s) = some v ∧ contains_key k (insertPhase k v s) = true := by
  obtain ⟨hi, hpi, hmin⟩ := firstHit_eq_some _ _ _ hp
  have hjlt : probeIndex s k i < s.buckets.length := by
    rw [hlen]; exact probeIndex_lt s k i hcap
  by_cases hav : slotAvailable (slotAt s (probeIndex s k i)) = true
  · rw [insertPhase_eq_of_avail k v s i hp hav]
    set s' : HashMap K V :=
      { s with buckets := s.buckets.set (probeIndex s k i) (some ⟨k, v, false⟩),
               size := s.size + 1 } with hs'
    have hpc : probeIndex s' k = probeIndex s k := probeIndex_congr s' s k rfl rfl
    have hslotj : slotAt s' (probeIndex s k i) = some ⟨k, v, false⟩ := by
      rw [hs']
      exact getD_set_self s.buckets (probeIndex s k i) _ none hjlt
    have hfind : findProbe k s' = some i := by
      rw [findProbe, hpc]
      show firstHit (fun l => slotLiveKey k (slotAt s' (probeIndex s k l))) s.capacity = some i
      apply firstHit_eq_some_of_least _ _ i hi
      · rw [hslotj]
        simp [slotLiveKey]
      · intro l hl
        have hplf := hmin l hl
        rw [Bool.or_eq_false_iff] at hplf
        by_cases hjl : probeIndex s k l = probeIndex s k i
        · exfalso
          rw [hjl] at hplf
          rcases Bool.or_eq_true_iff.mp hpi with ht | ht
          · rw [hplf.1] at ht; cases ht
          · rw [hplf.2] at ht; cases ht
        · have : slotAt s' (probeIndex s k l) = slotAt s (probeIndex s k l) := by
            rw [hs']
            exact getD_set_ne s.buckets (probeIndex s k i) (probeIndex s k l) _ none
              (fun habs => hjl habs.symm)
          rw [this]
          exact hplf.2
    constructor
    · rw [get, hfind]
      show (match slotAt s' (probeIndex s' k i) with
        | none => none
        | some e => some e.value) = some v
      rw [hpc, hslotj]
    · rw [contains_key, hfind]
      rfl
  · have hav' : slotAvailable (slotAt s (probeIndex s k i)) = false := by simpa using hav
    obtain ⟨e, he, htomb⟩ := slotAvailable_false_elim _ hav'
    have hkey : e.key = k := by
      rcases Bool.or_eq_true_iff.mp hpi with ht | ht
      · rw [hav'] at ht; cases ht
      · obtain ⟨e', he', _, hk'⟩ := slotLiveKey_elim k _ ht
        rw [he] at he'
        cases he'
        exact hk'
    rw [insertPhase_eq_of_match k v s i hp hav']
    set s' : HashMap K V :=
      { s with buckets := s.buckets.set (probeIndex s k i) ((slotAt s (probeIndex s k i)).map (fun e => { e with value := v })) } with hs'
    have hpc : probeIndex s' k = probeIndex s k := probeIndex_congr s' s k rfl rfl
    have hslotj : slotAt s' (probeIndex s k i) = some { e with value := v } := by
      have h2 := getD_set_self s.buckets (probeIndex s k i)
        ((slotAt s (probeIndex s k i)).map (fun e => { e with value := v })) none hjlt
      calc slotAt s' (probeIndex s k i)
          = (slotAt s (probeIndex s k i)).map (fun e => { e with value := v }) := h2
        _ = some { e with value := v } := by rw [he]; rfl
    have hfind : findProbe k s' = some i := by
      rw [findProbe, hpc]
      show firstHit (fun l => slotLiveKey k (slotAt s' (probeIndex s k l))) s.capacity = some i
      apply firstHit_eq_some_of_least _ _ i hi
      · rw [hslotj]
        simp [slotLiveKey, htomb, hkey]
      · intro l hl
        have hplf := hmin l hl
        rw [Bool.or_eq_false_iff] at hplf
        by_cases hjl : probeIndex s k l = probeIndex s k i
        · exfalso
          rw [hjl] at hplf
          rcases Bool.or_eq_true_iff.mp hpi with ht | ht
          · rw [hplf.1] at ht; cases ht
          · rw [hplf.2] at ht; cases ht
        · have : slotAt s' (probeIndex s k l) = slotAt s (probeIndex s k l) := by
            rw [hs']
            exact getD_set_ne s.buckets (probeIndex s k i) (probeIndex s k l) _ none
              (fun habs => hjl habs.symm)
          rw [this]
          exact hplf.2
    constructor
    · rw [get, hfind]
      show (match slotAt s' (probeIndex s' k i) with
        | none => none
        | some e => some e.value) = some v
      rw [hpc, hslotj]
    · rw [contains_key, hfind]
      rfl

/-- Core of claim C1 for the open-addressing variant: a `put` that returns
makes the key observable with the stored value. -/
theorem put_get_contains (fuel : Nat) (k : K) (v : V) (s s' : HashMap K V)
    (hInv : Inv s) (h : put fuel k v s = some s') :
    get k s' = some v ∧ contains_key k s' = true := by
  obtain ⟨g, rfl⟩ : ∃ g, fuel = g + 1 := by
    cases fuel with
    | zero => rw [put_zero] at h; cases h
    | succ g => exact ⟨g, rfl⟩
  rw [put_succ] at h
  cases hpre : preResize g s with
  | none => rw [hpre] at h; cases h
  | some s1 =>
    rw [hpre] at h
    simp only [Option.map_some'] at h
    cases h
    have hInv1 := preResize_Inv g s s1 hInv hpre
    have hload1 := preResize_load g s s1 hInv hpre
    have hlive : 2 * liveCount s1 < s1.capacity := by
      rw [← hInv1.size_eq]; exact hload1
    obtain ⟨i, hpp⟩ := putProbe_isSome s1 k hInv1.len_eq hInv1.cap_prime hlive
    exact insertPhase_found k v s1 i hpp hInv1.cap_prime.pos hInv1.len_eq

/-- Every reachable open-addressing map state satisfies the well-formedness
invariant. -/
theorem Reach_Inv (s : HashMap K V) (h : Reach s) : Inv s := by
  induction h with
  | of_init c hc f => exact init_Inv c hc f
  | of_put fuel k v s s' _ hp ih => exact (fuel_Inv fuel).1 k v s s' ih hp
  | of_resize fuel x s s' _ hr ih => exact (fuel_Inv fuel).2.1 x s s' ih hr
  | of_remove k s _ ih => exact remove_Inv k s ih
  | of_clear s _ ih => exact clear_Inv s ih

end OA

namespace SC

variable {K V : Type} [DecidableEq K]

/-! ### Chain lemmas -/

theorem chainContains_iff (k : K) (c : List (K × V)) :
    chainContains k c = true ↔ k ∈ c.map Prod.fst := by
  rw [chainContains, List.any_eq_true]
  constructor
  · rintro ⟨kv, hmem, hk⟩
    exact List.mem_map.mpr ⟨kv, hmem, by simpa using hk⟩
  · intro h
    obtain ⟨kv, hmem, hk⟩ := List.mem_map.mp h
    exact ⟨kv, hmem, by simpa using hk⟩

theorem chainContains_eq_false_iff (k : K) (c : List (K × V)) :
    chainContains k c = false ↔ k ∉ c.map Prod.fst := by
  rw [Bool.eq_false_iff]
  exact not_congr (chainContains_iff k c)

theorem chainUpdate_map_fst (k : K) (v : V) (c : List (K × V)) :
    (chainUpdate k v c).map Prod.fst = c.map Prod.fst := by
  induction c with
  | nil => rfl
  | cons kv rest ih =>
    rw [chainUpdate]
    by_cases hk : kv.1 = k
    · rw [if_pos hk]; rfl
    · rw [if_neg hk]
      simp [ih]

theorem chainUpdate_length (k : K) (v : V) (c : List (K × V)) :
    (chainUpdate k v c).length = c.length := by
  have := chainUpdate_map_fst k v c
  have h1 := congrArg List.length this
  simpa using h1

theorem chainRemove_sublist (k : K) (c : List (K × V)) :
    (chainRemove k c).Sublist c := by
  induction c with
  | nil => exact List.Sublist.refl _
  | cons kv rest ih =>
    rw [chainRemove]
    by_cases hk : kv.1 = k
    · rw [if_pos hk]
      exact List.sublist_cons_self _ _
    · rw [if_neg hk]
      exact List.Sublist.cons₂ _ ih

theorem chainRemove_length_of_contains (k : K) (c : List (K × V))
    (h : chainContains k c = true) :
    (chainRemove k c).length + 1 = c.length := by
  induction c with
  | nil => simp [chainContains] at h
  | cons kv rest ih =>
    rw [chainRemove]
    by_cases hk : kv.1 = k
    · rw [if_pos hk]; rfl
    · rw [if_neg hk]
      have h' : chainContains k rest = true := by
        rw [chainContains_iff] at h ⊢
        simp only [List.map_cons, List.mem_cons] at h
        rcases h with h | h
        · exact absurd h.symm hk
        · exact h
      simp only [List.length_cons]
      rw [← ih h']

theorem chainFind_append_self (k : K) (v : V) (c : List (K × V))
    (h : chainContains k c = false) :
    chainFind k (c ++ [(k, v)]) = some (k, v) := by
  rw [chainContains_eq_false_iff] at h
  induction c with
  | nil => simp [chainFind]
  | cons kv rest ih =>
    simp only [List.map_cons, List.mem_cons, not_or] at h
    rw [chainFind, List.cons_append, List.find?_cons_of_neg _
      (by simp only [decide_eq_true_eq]; exact fun habs => h.1 habs.symm)]
    exact ih h.2

theorem chainFind_chainUpdate (k : K) (v : V) (c : List (K × V))
    (h : chainContains k c = true) :
    chainFind k (chainUpdate k v c) = some (k, v) := by
  induction c with
  | nil => simp [chainContains] at h
  | cons kv rest ih =>
    rw [chainUpdate]
    by_cases hk : kv.1 = k
    · rw [if_pos hk, chainFind, List.find?_cons_of_pos _ (by simpa using hk), hk]
    · rw [if_neg hk, chainFind, List.find?_cons_of_neg _ (by simpa using hk)]
      apply ih
      rw [chainContains_iff] at h ⊢
      simp only [List.map_cons, List.mem_cons] at h
      rcases h with h | h
      · exact absurd h.symm hk
      · exact h

theorem chainFind_of_nodup (k : K) (v : V) (c : List (K × V))
    (hnd : (c.map Prod.fst).Nodup) (hmem : (k, v) ∈ c) :
    chainFind k c = some (k, v) := by
  induction c with
  | nil => simp at hmem
  | cons kv rest ih =>
    simp only [List.map_cons, List.nodup_cons] at hnd
    rcases List.mem_cons.mp hmem with rfl | hmem'
    · rw [chainFind, List.find?_cons_of_pos _ (by simp)]
    · by_cases hk : kv.1 = k
      · exfalso
        apply hnd.1
        rw [hk]
        exact List.mem_map.mpr ⟨(k, v), hmem', rfl⟩
      · rw [chainFind, List.find?_cons_of_neg _ (by simpa using hk)]
        exact ih hnd.2 hmem'

theorem chainFind_eq_some (k : K) (kv : K × V) (c : List (K × V))
    (h : chainFind k c = some kv) : kv.1 = k ∧ kv ∈ c := by
  have h1 := List.find?_some h
  have h2 := List.mem_of_find?_eq_some h
  exact ⟨by simpa using h1, h2⟩

/-! ### List-of-chains counting lemmas -/

theorem sum_length_set {α : Type _} (l : List (List α)) (b : Nat) (c' : List α)
    (hb : b < l.length) :
    ((l.set b c').map List.length).sum + (l.getD b []).length
      = (l.map List.length).sum + c'.length := by
  induction l generalizing b with
  | nil => simp at hb
  | cons c rest ih =>
    cases b with
    | zero => simp [List.set]; omega
    | succ n =>
      simp only [List.set, List.map_cons, List.sum_cons, List.getD_cons_succ]
      have := ih n (by simpa using hb)
      omega

theorem flatten_set_perm {α : Type _} (l : List (List α)) (b : Nat) (c' : List α)
    (hb : b < l.length) :
    ((l.set b c').flatten ++ l.getD b []).Perm (l.flatten ++ c') := by
  induction l generalizing b with
  | nil => simp at hb
  | cons c rest ih =>
    cases b with
    | zero =>
      simp only [List.set, List.flatten_cons, List.getD_cons_zero]
      apply List.Perm.trans List.perm_append_comm
      apply List.Perm.trans (List.Perm.append_left c List.perm_append_comm)
      rw [List.append_assoc]
    | succ n =>
      simp only [List.set, List.flatten_cons, List.getD_cons_succ]
      have hp := ih n (by simpa using hb)
      rw [List.append_assoc, List.append_assoc]
      exact List.Perm.append_left c hp

theorem flatten_set_multiset {α : Type _} (l : List (List α)) (b : Nat) (c' : List α)
    (hb : b < l.length) :
    (((l.set b c').flatten : List α) : Multiset α) + ((l.getD b [] : List α) : Multiset α)
      = ((l.flatten : List α) : Multiset α) + (c' : Multiset α) := by
  have hp := Multiset.coe_eq_coe.mpr (flatten_set_perm l b c' hb)
  simpa [Multiset.coe_add] using hp

theorem length_flatten_eq_sum {α : Type _} (l : List (List α)) :
    l.flatten.length = (l.map List.length).sum := by
  induction l with
  | nil => rfl
  | cons c rest ih => simp [List.flatten_cons, ih]

theorem mem_flatten_of_mem_getD {α : Type _} (l : List (List α)) (b : Nat) (x : α)
    (hb : b < l.length) (hx : x ∈ l.getD b []) : x ∈ l.flatten := by
  rw [List.mem_flatten]
  exact ⟨l.getD b [], getD_mem l b [] hb, hx⟩

/-! ### Unfolding and load lemmas -/

theorem put_succ_sc (fuel : Nat) (k : K) (v : V) (s : HashMap K V) :
    put (fuel + 1) k v s = (preResize fuel s).map (insertPhase k v) := by
  by_cases hl : (1:ℚ) ≤ table_load s
  · simp only [put, preResize, if_pos hl]
    cases resize_table fuel (next_prime (2 * (s.capacity : Int))) s <;> rfl
  · simp only [put, preResize, if_neg hl]
    rfl

theorem put_zero_sc (k : K) (v : V) (s : HashMap K V) : put 0 k v s = none := by
  simp [put]

theorem resize_succ_sc (fuel : Nat) (x : Int) (s : HashMap K V) :
    resize_table (fuel + 1) x s =
      if x < 1 then some s else resizeRebuild fuel x s := by
  simp only [resize_table, resizeRebuild]

theorem resize_zero_sc (x : Int) (s : HashMap K V) : resize_table 0 x s = none := by
  simp [resize_table]

theorem putAll_nil_sc (fuel : Nat) (t : HashMap K V) : putAll fuel [] t = some t := by
  simp [putAll]

theorem putAll_cons_sc (fuel : Nat) (kv : K × V) (rest : List (K × V)) (t : HashMap K V) :
    putAll fuel (kv :: rest) t =
      match put fuel kv.1 kv.2 t with
      | none => none
      | some t' => putAll fuel rest t' := by
  simp [putAll]

theorem table_load_ge_one_iff (s : HashMap K V) (h : 0 < s.capacity) :
    ((1:ℚ) ≤ table_load s) ↔ s.capacity ≤ s.size := by
  rw [table_load, le_div_iff₀ (by exact_mod_cast h)]
  constructor
  · intro hle
    have : (s.capacity : ℚ) ≤ (s.size : ℚ) := by linarith
    exact_mod_cast this
  · intro hle
    have : (s.capacity : ℚ) ≤ (s.size : ℚ) := by exact_mod_cast hle
    linarith

theorem no_trigger_of_small_sc (s : HashMap K V)
    (h : s.size < s.capacity ∨ s.capacity = 0) :
    ¬ ((1:ℚ) ≤ table_load s) := by
  rcases h with h | h
  · have hcap : 0 < s.capacity := by omega
    rw [table_load_ge_one_iff s hcap]
    omega
  · rw [table_load, h]
    norm_num

theorem put_no_trigger_sc (fuel : Nat) (k : K) (v : V) (s : HashMap K V)
    (h : ¬ ((1:ℚ) ≤ table_load s)) :
    put (fuel + 1) k v s = some (insertPhase k v s) := by
  rw [put_succ_sc, preResize, if_neg h]
  rfl

/-! ### Structural lemmas -/

theorem bucketIndex_lt (s : HashMap K V) (k : K) (h : 0 < s.capacity) :
    bucketIndex s k < s.capacity := Nat.mod_lt _ h

theorem insertPhase_eq_of_contains (k : K) (v : V) (s : HashMap K V)
    (h : chainContains k (bucketAt s (bucketIndex s k)) = true) :
    insertPhase k v s =
      { s with buckets := s.buckets.set (bucketIndex s k) (chainUpdate k v (bucketAt s (bucketIndex s k))) } := by
  simp [insertPhase, h]

theorem insertPhase_eq_of_not_contains (k : K) (v : V) (s : HashMap K V)
    (h : chainContains k (bucketAt s (bucketIndex s k)) = false) :
    insertPhase k v s =
      { s with buckets := s.buckets.set (bucketIndex s k) (chainInsert k v (bucketAt s (bucketIndex s k))),
               size := s.size + 1 } := by
  simp [insertPhase, h]

theorem insertPhase_capacity_sc (k : K) (v : V) (s : HashMap K V) :
    (insertPhase k v s).capacity = s.capacity := by
  by_cases h : chainContains k (bucketAt s (bucketIndex s k)) = true
  · rw [insertPhase_eq_of_contains k v s h]
  · rw [insertPhase_eq_of_not_contains k v s (by simpa using h)]

theorem insertPhase_hash_sc (k : K) (v : V) (s : HashMap K V) :
    (insertPhase k v s).hash_function = s.hash_function := by
  by_cases h : chainContains k (bucketAt s (bucketIndex s k)) = true
  · rw [insertPhase_eq_of_contains k v s h]
  · rw [insertPhase_eq_of_not_contains k v s (by simpa using h)]

theorem insertPhase_size_le_sc (k : K) (v : V) (s : HashMap K V) :
    (insertPhase k v s).size ≤ s.size + 1 := by
  by_cases h : chainContains k (bucketAt s (bucketIndex s k)) = true
  · rw [insertPhase_eq_of_contains k v s h]
    exact Nat.le_succ _
  · rw [insertPhase_eq_of_not_contains k v s (by simpa using h)]

theorem insertPhase_len_sc (k : K) (v : V) (s : HashMap K V) :
    (insertPhase k v s).buckets.length = s.buckets.length := by
  by_cases h : chainContains k (bucketAt s (bucketIndex s k)) = true
  · rw [insertPhase_eq_of_contains k v s h]
    simp [List.length_set]
  · rw [insertPhase_eq_of_not_contains k v s (by simpa using h)]
    simp [List.length_set]

theorem getD_map_lt {α β : Type _} (f : α → β) (l : List α) (b : Nat) (d : α) (d' : β)
    (hb : b < l.length) : (l.map f).getD b d' = f (l.getD b d) := by
  induction l generalizing b with
  | nil => simp at hb
  | cons x xs ih =>
    cases b with
    | zero => rfl
    | succ n => exact ih n (by simpa using hb)

theorem getD_replicate_nil {α : Type _} (n b : Nat) :
    (List.replicate n ([] : List α)).getD b [] = [] := by
  induction n generalizing b with
  | zero => cases b <;> rfl
  | succ m ih =>
    cases b with
    | zero => rfl
    | succ j => exact ih j

/-! ### Invariant preservation -/

theorem init_Inv_sc (c : Int) (hc : 0 ≤ c) (f : K → Nat) :
    Inv (init (V := V) c f) := by
  obtain ⟨q, hq, hqprime, hqm, _⟩ := next_prime_eq_least c hc
  have hprime : Nat.Prime (next_prime c).toNat := by
    rw [hq]; simpa using hqprime
  refine ⟨by simp [init], by simp [init], hprime, by simp [init], ?_, ?_⟩
  · intro b _ x hx
    rw [show (init (V := V) c f).buckets = List.replicate (next_prime c).toNat [] from rfl] at hx
    rw [getD_replicate_nil] at hx
    simp at hx
  · intro b _
    rw [show (init (V := V) c f).buckets = List.replicate (next_prime c).toNat [] from rfl]
    rw [getD_replicate_nil]
    simp

theorem freshMap_Inv_sc (x : Int) (s : HashMap K V) (hx : 0 ≤ x) :
    Inv (freshMap x s) := by
  have hprime : Nat.Prime (coerceCapacity x) := by
    rw [coerceCapacity]
    exact coerced_capacity_prime x hx
  refine ⟨by simp [freshMap], by simp [freshMap], hprime, by simp [freshMap], ?_, ?_⟩
  · intro b _ k hk
    rw [show (freshMap x s).buckets = List.replicate (coerceCapacity x) [] from rfl] at hk
    rw [getD_replicate_nil] at hk
    simp at hk
  · intro b _
    rw [show (freshMap x s).buckets = List.replicate (coerceCapacity x) [] from rfl]
    rw [getD_replicate_nil]
    simp

theorem clear_Inv_sc (s : HashMap K V) (hInv : Inv s) : Inv (clear s) := by
  refine ⟨by simp [clear], by simp [clear], hInv.cap_prime, by simp [clear], ?_, ?_⟩
  · intro b _ k hk
    rw [show (clear s).buckets = List.replicate s.capacity [] from rfl] at hk
    rw [getD_replicate_nil] at hk
    simp at hk
  · intro b _
    rw [show (clear s).buckets = List.replicate s.capacity [] from rfl]
    rw [getD_replicate_nil]
    simp

theorem insertPhase_Inv_sc (k : K) (v : V) (s : HashMap K V) (hInv : Inv s)
    (hroom : s.size < s.capacity) : Inv (insertPhase k v s) := by
  have hcap : 0 < s.capacity := hInv.cap_prime.pos
  have hblt : bucketIndex s k < s.buckets.length := by
    rw [hInv.len_eq]; exact bucketIndex_lt s k hcap
  have hgetD : s.buckets.getD (bucketIndex s k) [] = bucketAt s (bucketIndex s k) := rfl
  by_cases h : chainContains k (bucketAt s (bucketIndex s k)) = true
  · rw [insertPhase_eq_of_contains k v s h]
    have hsum := sum_length_set s.buckets (bucketIndex s k)
      (chainUpdate k v (bucketAt s (bucketIndex s k))) hblt
    rw [chainUpdate_length, hgetD] at hsum
    refine ⟨by simpa [List.length_set] using hInv.len_eq, ?_, hInv.cap_prime,
      le_of_lt hroom, ?_, ?_⟩
    · show s.size = ((s.buckets.set (bucketIndex s k)
        (chainUpdate k v (bucketAt s (bucketIndex s k)))).map List.length).sum
      have := hInv.size_eq
      omega
    · intro b hb x hx
      show s.hash_function x % s.capacity = b
      simp only [List.length_set] at hb
      by_cases hbe : b = bucketIndex s k
      · subst hbe
        rw [getD_set_self _ _ _ _ hblt, chainUpdate_map_fst] at hx
        rw [← hgetD] at hx
        exact hInv.hash_ok _ hblt x hx
      · rw [getD_set_ne _ _ _ _ _ (fun habs => hbe habs.symm)] at hx
        exact hInv.hash_ok b hb x hx
    · intro b hb
      simp only [List.length_set] at hb
      by_cases hbe : b = bucketIndex s k
      · subst hbe
        rw [getD_set_self _ _ _ _ hblt, chainUpdate_map_fst, ← hgetD]
        exact hInv.chains_nodup _ hblt
      · rw [getD_set_ne _ _ _ _ _ (fun habs => hbe habs.symm)]
        exact hInv.chains_nodup b hb
  · have h' : chainContains k (bucketAt s (bucketIndex s k)) = false := by simpa using h
    rw [insertPhase_eq_of_not_contains k v s h']
    have hsum := sum_length_set s.buckets (bucketIndex s k)
      (chainInsert k v (bucketAt s (bucketIndex s k))) hblt
    have hinslen : (chainInsert k v (bucketAt s (bucketIndex s k))).length
        = (bucketAt s (bucketIndex s k)).length + 1 := by
      simp [chainInsert]
    refine ⟨by simpa [List.length_set] using hInv.len_eq, ?_, hInv.cap_prime, ?_, ?_, ?_⟩
    · show s.size + 1 = ((s.buckets.set (bucketIndex s k)
        (chainInsert k v (bucketAt s (bucketIndex s k)))).map List.length).sum
      have := hInv.size_eq
      rw [hinslen, hgetD] at hsum
      omega
    · show s.size + 1 ≤ s.capacity
      omega
    · intro b hb x hx
      show s.hash_function x % s.capacity = b
      simp only [List.length_set] at hb
      by_cases hbe : b = bucketIndex s k
      · subst hbe
        rw [getD_set_self _ _ _ _ hblt] at hx
        rw [chainInsert, List.map_append] at hx
        rcases List.mem_append.mp hx with hx | hx
        · exact hInv.hash_ok _ hblt x hx
        · simp only [List.map_cons, List.map_nil, List.mem_singleton] at hx
          subst hx
          rfl
      · rw [getD_set_ne _ _ _ _ _ (fun habs => hbe habs.symm)] at hx
        exact hInv.hash_ok b hb x hx
    · intro b hb
      simp only [List.length_set] at hb
      by_cases hbe : b = bucketIndex s k
      · subst hbe
        rw [getD_set_self _ _ _ _ hblt, chainInsert, List.map_append]
        rw [List.nodup_append]
        refine ⟨hInv.chains_nodup _ hblt, by simp, ?_⟩
        rw [chainContains_eq_false_iff] at h'
        intro x hx1 hx2
        simp only [List.map_cons, List.map_nil, List.mem_singleton] at hx2
        subst hx2
        exact h' hx1
      · rw [getD_set_ne _ _ _ _ _ (fun habs => hbe habs.symm)]
        exact hInv.chains_nodup b hb

theorem sum_length_removeMap (k : K) (l : List (List (K × V))) :
    ((l.map (fun c => if chainContains k c then chainRemove k c else c)).map List.length).sum
      + l.countP (fun c => chainContains k c) = (l.map List.length).sum := by
  induction l with
  | nil => rfl
  | cons c rest ih =>
    simp only [List.map_cons, List.sum_cons, List.countP_cons]
    by_cases hc : chainContains k c = true
    · rw [if_pos hc, if_pos hc]
      have := chainRemove_length_of_contains k c hc
      omega
    · rw [if_neg hc, if_neg hc]
      omega

theorem remove_Inv_sc (k : K) (s : HashMap K V) (hInv : Inv s) : Inv (remove k s) := by
  rw [remove]
  by_cases h : contains_key k s = false
  · rw [if_pos h]; exact hInv
  · rw [if_neg h]
    have hsum := sum_length_removeMap k s.buckets
    refine ⟨by simpa using hInv.len_eq, ?_, hInv.cap_prime, ?_, ?_, ?_⟩
    · show s.size - s.buckets.countP (fun c => chainContains k c)
        = ((s.buckets.map (fun c => if chainContains k c then chainRemove k c else c)).map List.length).sum
      have := hInv.size_eq
      omega
    · show s.size - s.buckets.countP (fun c => chainContains k c) ≤ s.capacity
      have := hInv.size_le
      omega
    · intro b hb x hx
      show s.hash_function x % s.capacity = b
      simp only [List.length_map] at hb
      rw [getD_map_lt _ _ _ [] _ hb] at hx
      have hsub : ((if chainContains k (s.buckets.getD b []) then chainRemove k (s.buckets.getD b [])
          else s.buckets.getD b []).map Prod.fst).Sublist ((s.buckets.getD b []).map Prod.fst) := by
        split
        · exact (chainRemove_sublist k _).map Prod.fst
        · exact List.Sublist.refl _
      exact hInv.hash_ok b hb x (hsub.mem hx)
    · intro b hb
      simp only [List.length_map] at hb
      rw [getD_map_lt _ _ _ [] _ hb]
      have hsub : ((if chainContains k (s.buckets.getD b []) then chainRemove k (s.buckets.getD b [])
          else s.buckets.getD b []).map Prod.fst).Sublist ((s.buckets.getD b []).map Prod.fst) := by
        split
        · exact (chainRemove_sublist k _).map Prod.fst
        · exact List.Sublist.refl _
      exact (hInv.chains_nodup b hb).sublist hsub

theorem kvs_length_sc (s : HashMap K V) (hInv : Inv s) :
    (get_keys_and_values s).length = s.size := by
  rw [get_keys_and_values, length_flatten_eq_sum, ← hInv.size_eq]

/-- No nested resize fires along a re-insertion run whose pair count keeps
the size strictly below the capacity at every step. -/
theorem putAll_bound_sc (fuel : Nat) (pairs : List (K × V)) (t t' : HashMap K V)
    (h : putAll fuel pairs t = some t')
    (hb : t.size + pairs.length ≤ t.capacity) :
    t'.size ≤ t.size + pairs.length ∧ t'.capacity = t.capacity ∧
      t'.hash_function = t.hash_function ∧ t'.buckets.length = t.buckets.length := by
  induction pairs generalizing t with
  | nil =>
    rw [putAll_nil_sc] at h
    cases h
    exact ⟨le_refl _, rfl, rfl, rfl⟩
  | cons kv rest ih =>
    rw [putAll_cons_sc] at h
    cases hstep : put fuel kv.1 kv.2 t with
    | none => rw [hstep] at h; cases h
    | some t1 =>
      rw [hstep] at h
      obtain ⟨g, rfl⟩ : ∃ g, fuel = g + 1 := by
        cases fuel with
        | zero => rw [put_zero_sc] at hstep; cases hstep
        | succ g => exact ⟨g, rfl⟩
      have hnt : ¬ ((1:ℚ) ≤ table_load t) := by
        apply no_trigger_of_small_sc
        simp only [List.length_cons] at hb
        omega
      rw [put_no_trigger_sc g kv.1 kv.2 t hnt] at hstep
      cases hstep
      have hsz := insertPhase_size_le_sc kv.1 kv.2 t
      have hcap := insertPhase_capacity_sc kv.1 kv.2 t
      have hhash := insertPhase_hash_sc kv.1 kv.2 t
      have hlen := insertPhase_len_sc kv.1 kv.2 t
      obtain ⟨h1, h2, h3, h4⟩ := ih (insertPhase kv.1 kv.2 t) h
        (by simp only [List.length_cons] at hb; omega)
      refine ⟨?_, by omega, by rw [h3, hhash], by rw [h4, hlen]⟩
      simp only [List.length_cons]
      omega

/-- The pre-resize inside `put` leaves the size strictly below the
capacity. -/
theorem resize_double_load_sc (s : HashMap K V) (hInv : Inv s) (g : Nat)
    (s1 : HashMap K V)
    (h : resize_table g (next_prime (2 * (s.capacity : Int))) s = some s1) :
    s1.size < s1.capacity := by
  obtain ⟨g', rfl⟩ : ∃ g', g = g' + 1 := by
    cases g with
    | zero => rw [resize_zero_sc] at h; cases h
    | succ g' => exact ⟨g', rfl⟩
  have hx0 : (0:Int) ≤ 2 * (s.capacity : Int) := by positivity
  obtain ⟨q, hq, hqprime, hqm, _⟩ := next_prime_eq_least (2 * (s.capacity : Int)) hx0
  have hq2cap : 2 * s.capacity ≤ q := by
    have : ((2 * (s.capacity : Int)).toNat) = 2 * s.capacity := by omega
    omega
  have hq3 : 3 ≤ q := le_trans (le_max_right _ _) hqm
  rw [resize_succ_sc] at h
  split at h
  · rename_i hgate
    omega
  · rw [resizeRebuild] at h
    have hisp : is_prime (next_prime (2 * (s.capacity : Int))) = true := by
      rw [is_prime_iff_prime _ (by omega)]
      rw [hq]
      simpa using hqprime
    have hfreshcap : (freshMap (next_prime (2 * (s.capacity : Int))) s).capacity = q := by
      simp only [freshMap, coerceCapacity, hisp, if_true]
      omega
    have hfreshsize : (freshMap (next_prime (2 * (s.capacity : Int))) s).size = 0 := rfl
    have hn : (get_keys_and_values s).length = s.size := kvs_length_sc s hInv
    have hcap2 : 0 < s.capacity := hInv.cap_prime.pos
    obtain ⟨h1, h2, _, _⟩ := putAll_bound_sc g' (get_keys_and_values s) _ s1 h
      (by rw [hfreshcap, hfreshsize, hn]; have := hInv.size_le; omega)
    rw [hfreshcap] at h2
    rw [hfreshsize, hn] at h1
    have := hInv.size_le
    omega

theorem preResize_load_sc (fuel : Nat) (s s1 : HashMap K V) (hInv : Inv s)
    (h : preResize fuel s = some s1) : s1.size < s1.capacity := by
  rw [preResize] at h
  split at h
  · exact resize_double_load_sc s hInv fuel s1 h
  · cases h
    rename_i hnl
    have hcap : 0 < s.capacity := hInv.cap_prime.pos
    rw [table_load_ge_one_iff s hcap] at hnl
    omega

/-- Fuelled invariant preservation, by mutual induction on the fuel. -/
theorem fuel_Inv_sc (fuel : Nat) :
    (∀ (k : K) (v : V) (s s' : HashMap K V), Inv s → put fuel k v s = some s' → Inv s') ∧
    (∀ (x : Int) (s s' : HashMap K V), Inv s → resize_table fuel x s = some s' → Inv s') ∧
    (∀ (pairs : List (K × V)) (t t' : HashMap K V), Inv t → putAll fuel pairs t = some t' → Inv t') := by
  induction fuel with
  | zero =>
    refine ⟨?_, ?_, ?_⟩
    · intro k v s s' _ h; rw [put_zero_sc] at h; cases h
    · intro x s s' _ h; rw [resize_zero_sc] at h; cases h
    · intro pairs t t' hInv h
      cases pairs with
      | nil => rw [putAll_nil_sc] at h; cases h; exact hInv
      | cons kv rest =>
        rw [putAll_cons_sc, put_zero_sc] at h
        cases h
  | succ n ih =>
    have hput : ∀ (k : K) (v : V) (s s' : HashMap K V), Inv s → put (n + 1) k v s = some s' → Inv s' := by
      intro k v s s' hInv h
      rw [put_succ_sc] at h
      cases hpre : preResize n s with
      | none => rw [hpre] at h; cases h
      | some s1 =>
        rw [hpre] at h
        have hload : s1.size < s1.capacity := preResize_load_sc n s s1 hInv hpre
        have hs1 : Inv s1 := by
          rw [preResize] at hpre
          split at hpre
          · exact ih.2.1 _ _ _ hInv hpre
          · cases hpre; exact hInv
        simp only [Option.map_some'] at h
        cases h
        exact insertPhase_Inv_sc _ _ _ hs1 hload
    have hresize : ∀ (x : Int) (s s' : HashMap K V), Inv s → resize_table (n + 1) x s = some s' → Inv s' := by
      intro x s s' hInv h
      rw [resize_succ_sc] at h
      split at h
      · cases h; exact hInv
      · rename_i hgate
        have hx : 0 ≤ x := by omega
        rw [resizeRebuild] at h
        exact ih.2.2 _ _ _ (freshMap_Inv_sc x s hx) h
    refine ⟨hput, hresize, ?_⟩
    intro pairs
    induction pairs with
    | nil =>
      intro t t' hInv h
      rw [putAll_nil_sc] at h; cases h; exact hInv
    | cons kv rest ihp =>
      intro t t' hInv h
      rw [putAll_cons_sc] at h
      cases hstep : put (n + 1) kv.1 kv.2 t with
      | none => rw [hstep] at h; cases h
      | some t1 =>
        rw [hstep] at h
        exact ihp t1 t' (hput _ _ _ _ hInv hstep) h

/-! ### Abstraction: `get`/`contains_key` against the pair list -/

theorem getD_eq_getElem_own {α : Type _} (l : List α) (i : Nat) (d : α) (h : i < l.length) :
    l.getD i d = l[i] := by
  induction l generalizing i with
  | nil => simp at h
  | cons x xs ih =>
    cases i with
    | zero => rfl
    | succ n => exact ih n (by simpa using h)

theorem mem_bucket_of_mem_kvs (s : HashMap K V) (hInv : Inv s) (k : K) (v : V)
    (h : (k, v) ∈ get_keys_and_values s) :
    (k, v) ∈ bucketAt s (bucketIndex s k) := by
  rw [get_keys_and_values, List.mem_flatten] at h
  obtain ⟨c, hc, hmem⟩ := h
  obtain ⟨b, hb, hbc⟩ := List.mem_iff_getElem.mp hc
  have hkeys : k ∈ (s.buckets.getD b []).map Prod.fst := by
    rw [getD_eq_getElem_own _ _ _ hb, hbc]
    exact List.mem_map.mpr ⟨(k, v), hmem, rfl⟩
  have hhash := hInv.hash_ok b hb k hkeys
  have hbi : bucketIndex s k = b := by
    rw [bucketIndex, hhash]
  rw [hbi]
  show (k, v) ∈ s.buckets.getD b []
  rw [getD_eq_getElem_own _ _ _ hb, hbc]
  exact hmem

theorem mem_kvs_of_mem_bucket (s : HashMap K V) (hInv : Inv s) (k : K) (v : V)
    (h : (k, v) ∈ bucketAt s (bucketIndex s k)) :
    (k, v) ∈ get_keys_and_values s := by
  have hcap : 0 < s.capacity := hInv.cap_prime.pos
  have hblt : bucketIndex s k < s.buckets.length := by
    rw [hInv.len_eq]; exact bucketIndex_lt s k hcap
  exact mem_flatten_of_mem_getD s.buckets (bucketIndex s k) _ hblt h

theorem size_pos_of_mem_bucket (s : HashMap K V) (hInv : Inv s) (k : K) (v : V)
    (h : (k, v) ∈ bucketAt s (bucketIndex s k)) : s.size ≠ 0 := by
  have hcap : 0 < s.capacity := hInv.cap_prime.pos
  have hblt : bucketIndex s k < s.buckets.length := by
    rw [hInv.len_eq]; exact bucketIndex_lt s k hcap
  have hmem := mem_flatten_of_mem_getD s.buckets (bucketIndex s k) _ hblt h
  have : 0 < s.buckets.flatten.length := List.length_pos.mpr (List.ne_nil_of_mem hmem)
  rw [length_flatten_eq_sum] at this
  rw [hInv.size_eq]
  omega

theorem contains_key_iff (s : HashMap K V) (hInv : Inv s) (k : K) :
    contains_key k s = true ↔ k ∈ (get_keys_and_values s).map Prod.fst := by
  rw [contains_key]
  by_cases hz : s.size = 0
  · rw [if_pos hz]
    simp only [Bool.false_eq_true, false_iff]
    intro habs
    obtain ⟨⟨k', v⟩, hmem, hk⟩ := List.mem_map.mp habs
    cases hk
    exact size_pos_of_mem_bucket s hInv _ v (mem_bucket_of_mem_kvs s hInv _ v hmem) hz
  · rw [if_neg hz, chainContains_iff]
    constructor
    · intro h
      obtain ⟨⟨k', v⟩, hmem, hk⟩ := List.mem_map.mp h
      cases hk
      exact List.mem_map.mpr ⟨(k', v), mem_kvs_of_mem_bucket s hInv _ v hmem, rfl⟩
    · intro h
      obtain ⟨⟨k', v⟩, hmem, hk⟩ := List.mem_map.mp h
      cases hk
      exact List.mem_map.mpr ⟨(k', v), mem_bucket_of_mem_kvs s hInv _ v hmem, rfl⟩

theorem get_eq_some_iff (s : HashMap K V) (hInv : Inv s) (k : K) (v : V) :
    get k s = some v ↔ (k, v) ∈ get_keys_and_values s := by
  constructor
  · intro h
    rw [get] at h
    split at h
    · cases h
    · rename_i hck
      cases hf : chainFind k (bucketAt s (bucketIndex s k)) with
      | none => rw [hf] at h; cases h
      | some kv =>
        rw [hf] at h
        obtain ⟨hk1, hkmem⟩ := chainFind_eq_some k kv _ hf
        have hv : kv.2 = v := by cases h; rfl
        have : (k, v) ∈ bucketAt s (bucketIndex s k) := by
          have : kv = (k, v) := by
            cases kv
            simp at hk1 hv
            simp [hk1, hv]
          rwa [this] at hkmem
        exact mem_kvs_of_mem_bucket s hInv k v this
  · intro h
    have hmem := mem_bucket_of_mem_kvs s hInv k v h
    have hcap : 0 < s.capacity := hInv.cap_prime.pos
    have hblt : bucketIndex s k < s.buckets.length := by
      rw [hInv.len_eq]; exact bucketIndex_lt s k hcap
    have hnd := hInv.chains_nodup (bucketIndex s k) hblt
    have hfind := chainFind_of_nodup k v (bucketAt s (bucketIndex s k)) hnd hmem
    have hcontains : contains_key k s = true := by
      rw [contains_key_iff s hInv]
      exact List.mem_map.mpr ⟨(k, v), h, rfl⟩
    rw [get, if_neg (by simp [hcontains]), hfind]

theorem get_eq_none_iff (s : HashMap K V) (hInv : Inv s) (k : K) :
    get k s = none ↔ k ∉ (get_keys_and_values s).map Prod.fst := by
  constructor
  · intro h habs
    obtain ⟨⟨k', v⟩, hmem, hk⟩ := List.mem_map.mp habs
    cases hk
    rw [(get_eq_some_iff s hInv k' v).mpr hmem] at h
    cases h
  · intro h
    cases hg : get k s with
    | none => rfl
    | some v =>
      exact absurd (List.mem_map.mpr ⟨(k, v), (get_eq_some_iff s hInv k v).mp hg, rfl⟩) h

theorem contains_of_get_some (s : HashMap K V) (k : K) (v : V)
    (h : get k s = some v) : contains_key k s = true := by
  rw [get] at h
  split at h
  · cases h
  · rename_i hck
    simpa using hck

/-- Distinct buckets hold disjoint key sets, so the concatenated pair list
has globally distinct keys. -/
theorem keys_global_nodup (s : HashMap K V) (hInv : Inv s) :
    ((get_keys_and_values s).map Prod.fst).Nodup := by
  rw [get_keys_and_values, List.map_flatten]
  rw [List.nodup_flatten]
  constructor
  · intro ks hks
    obtain ⟨c, hc, rfl⟩ := List.mem_map.mp hks
    obtain ⟨b, hb, hbc⟩ := List.mem_iff_getElem.mp hc
    have := hInv.chains_nodup b hb
    rwa [getD_eq_getElem_own _ _ _ hb, hbc] at this
  · rw [List.pairwise_map]
    rw [List.pairwise_iff_getElem]
    intro b b' hb hb' hlt x hx hx'
    obtain ⟨y, hy, hyx⟩ := List.mem_map.mp hx
    obtain ⟨y', hy', hyx'⟩ := List.mem_map.mp hx'
    have h1 : s.hash_function x % s.capacity = b := by
      apply hInv.hash_ok b hb
      rw [getD_eq_getElem_own _ _ _ hb]
      exact hx
    have h2 : s.hash_function x % s.capacity = b' := by
      apply hInv.hash_ok b' hb'
      rw [getD_eq_getElem_own _ _ _ hb']
      exact hx'
    omega

/-! ### Effect of `put` on the pair list, as a multiset -/

theorem chainUpdate_multiset (k : K) (v : V) (c : List (K × V))
    (hc : chainContains k c = true) :
    ∃ old : V, (k, old) ∈ c ∧
      ((chainUpdate k v c : List (K × V)) : Multiset (K × V)) + {(k, old)}
        = (c : Multiset (K × V)) + {(k, v)} := by
  induction c with
  | nil => simp [chainContains] at hc
  | cons kv rest ih =>
    rw [chainUpdate]
    by_cases hk : kv.1 = k
    · refine ⟨kv.2, ?_, ?_⟩
      · have hkv : (k, kv.2) = kv := by rw [← hk]
        rw [hkv]
        exact List.mem_cons_self _ _
      · rw [if_pos hk, hk]
        have hkv : kv = (k, kv.2) := by rw [← hk]
        rw [hkv]
        simp only [← Multiset.coe_singleton, Multiset.coe_add, Multiset.coe_eq_coe]
        exact (List.perm_append_comm).trans
          ((List.Perm.swap _ _ _).trans
            (@List.perm_append_comm _ [(k, v)] ((k, kv.2) :: rest)))
    · rw [if_neg hk]
      have hc' : chainContains k rest = true := by
        rw [chainContains_iff] at hc ⊢
        simp only [List.map_cons, List.mem_cons] at hc
        rcases hc with hc | hc
        · exact absurd hc.symm hk
        · exact hc
      obtain ⟨old, hmem, heq⟩ := ih hc'
      refine ⟨old, List.mem_cons_of_mem _ hmem, ?_⟩
      simp only [← Multiset.cons_coe, Multiset.cons_add]
      rw [heq]

theorem insertPhase_kvs_new (k : K) (v : V) (s : HashMap K V) (hInv : Inv s)
    (h : chainContains k (bucketAt s (bucketIndex s k)) = false) :
    ((get_keys_and_values (insertPhase k v s) : List (K × V)) : Multiset (K × V))
      = ((get_keys_and_values s : List (K × V)) : Multiset (K × V)) + {(k, v)} := by
  have hcap : 0 < s.capacity := hInv.cap_prime.pos
  have hblt : bucketIndex s k < s.buckets.length := by
    rw [hInv.len_eq]; exact bucketIndex_lt s k hcap
  rw [insertPhase_eq_of_not_contains k v s h]
  show (((s.buckets.set (bucketIndex s k) (chainInsert k v (bucketAt s (bucketIndex s k)))).flatten : List (K × V)) : Multiset (K × V))
    = ((s.buckets.flatten : List (K × V)) : Multiset (K × V)) + {(k, v)}
  have hfl := flatten_set_multiset s.buckets (bucketIndex s k)
    (chainInsert k v (bucketAt s (bucketIndex s k))) hblt
  have hins : ((chainInsert k v (bucketAt s (bucketIndex s k)) : List (K × V)) : Multiset (K × V))
      = ((bucketAt s (bucketIndex s k) : List (K × V)) : Multiset (K × V)) + {(k, v)} := by
    rw [chainInsert, ← Multiset.coe_singleton, Multiset.coe_add]
  have hgetD : (s.buckets.getD (bucketIndex s k) [] : List (K × V)) = bucketAt s (bucketIndex s k) := rfl
  rw [hgetD, hins, ← add_assoc, add_right_comm] at hfl
  exact add_right_cancel hfl

theorem insertPhase_kvs_over (k : K) (v : V) (s : HashMap K V) (hInv : Inv s)
    (h : chainContains k (bucketAt s (bucketIndex s k)) = true) :
    ∃ old : V, (k, old) ∈ get_keys_and_values s ∧
      ((get_keys_and_values (insertPhase k v s) : List (K × V)) : Multiset (K × V)) + {(k, old)}
        = ((get_keys_and_values s : List (K × V)) : Multiset (K × V)) + {(k, v)} := by
  have hcap : 0 < s.capacity := hInv.cap_prime.pos
  have hblt : bucketIndex s k < s.buckets.length := by
    rw [hInv.len_eq]; exact bucketIndex_lt s k hcap
  obtain ⟨old, holdmem, hupd⟩ := chainUpdate_multiset k v (bucketAt s (bucketIndex s k)) h
  refine ⟨old, mem_kvs_of_mem_bucket s hInv k old holdmem, ?_⟩
  rw [insertPhase_eq_of_contains k v s h]
  show (((s.buckets.set (bucketIndex s k) (chainUpdate k v (bucketAt s (bucketIndex s k)))).flatten : List (K × V)) : Multiset (K × V)) + {(k, old)}
    = ((s.buckets.flatten : List (K × V)) : Multiset (K × V)) + {(k, v)}
  have hfl := flatten_set_multiset s.buckets (bucketIndex s k)
    (chainUpdate k v (bucketAt s (bucketIndex s k))) hblt
  have hgetD : (s.buckets.getD (bucketIndex s k) [] : List (K × V)) = bucketAt s (bucketIndex s k) := rfl
  rw [hgetD] at hfl
  set A := (((s.buckets.set (bucketIndex s k) (chainUpdate k v (bucketAt s (bucketIndex s k)))).flatten : List (K × V)) : Multiset (K × V)) with hA
  set B := ((bucketAt s (bucketIndex s k) : List (K × V)) : Multiset (K × V)) with hB
  set F := ((s.buckets.flatten : List (K × V)) : Multiset (K × V)) with hF
  set U := ((chainUpdate k v (bucketAt s (bucketIndex s k)) : List (K × V)) : Multiset (K × V)) with hU
  have hstep : A + {(k, old)} + B = F + {(k, v)} + B := by
    rw [add_right_comm A _ B, hfl, add_assoc, hupd, ← add_assoc, add_right_comm F B _]
  exact add_right_cancel hstep

/-- Re-inserting pairs with fresh, distinct keys appends exactly those pairs
to the pair multiset (no nested resize fires when the table has room). -/
theorem putAll_fresh_kvs (fuel : Nat) (pairs : List (K × V)) (t t' : HashMap K V)
    (hInv : Inv t) (h : putAll fuel pairs t = some t')
    (hroom : t.size + pairs.length ≤ t.capacity)
    (hdisj : ∀ p ∈ pairs, p.1 ∉ (get_keys_and_values t).map Prod.fst)
    (hnd : (pairs.map Prod.fst).Nodup) :
    Inv t' ∧
      ((get_keys_and_values t' : List (K × V)) : Multiset (K × V))
        = ((get_keys_and_values t : List (K × V)) : Multiset (K × V)) + (pairs : Multiset (K × V)) ∧
      t'.hash_function = t.hash_function := by
  induction pairs generalizing t with
  | nil =>
    rw [putAll_nil_sc] at h
    cases h
    exact ⟨hInv, by simp, rfl⟩
  | cons kv rest ih =>
    rw [putAll_cons_sc] at h
    cases hstep : put fuel kv.1 kv.2 t with
    | none => rw [hstep] at h; cases h
    | some t1 =>
      rw [hstep] at h
      obtain ⟨g, rfl⟩ : ∃ g, fuel = g + 1 := by
        cases fuel with
        | zero => rw [put_zero_sc] at hstep; cases hstep
        | succ g => exact ⟨g, rfl⟩
      have hlt : t.size < t.capacity := by
        simp only [List.length_cons] at hroom
        omega
      have hnt : ¬ ((1:ℚ) ≤ table_load t) := no_trigger_of_small_sc t (Or.inl hlt)
      rw [put_no_trigger_sc g kv.1 kv.2 t hnt] at hstep
      cases hstep
      have hnc : chainContains kv.1 (bucketAt t (bucketIndex t kv.1)) = false := by
        rw [chainContains_eq_false_iff]
        intro habs
        obtain ⟨⟨k', w⟩, hmem, hk⟩ := List.mem_map.mp habs
        cases hk
        apply hdisj kv (List.mem_cons_self _ _)
        exact List.mem_map.mpr ⟨(kv.1, w), mem_kvs_of_mem_bucket t hInv kv.1 w hmem, rfl⟩
      have hInv1 : Inv (insertPhase kv.1 kv.2 t) := insertPhase_Inv_sc kv.1 kv.2 t hInv hlt
      have hkvs1 : ((get_keys_and_values (insertPhase kv.1 kv.2 t) : List (K × V)) : Multiset (K × V))
          = ((get_keys_and_values t : List (K × V)) : Multiset (K × V)) + {kv} := by
        have := insertPhase_kvs_new kv.1 kv.2 t hInv hnc
        simpa using this
      have hmem1 : ∀ x : K, (x ∈ (get_keys_and_values (insertPhase kv.1 kv.2 t)).map Prod.fst)
          ↔ (x ∈ (get_keys_and_values t).map Prod.fst ∨ x = kv.1) := by
        intro x
        constructor
        · intro hx
          rcases List.mem_map.mp hx with ⟨⟨k', w⟩, hmemx, rfl⟩
          have hin : (k', w) ∈ ((get_keys_and_values t : List (K × V)) : Multiset (K × V)) + ({kv} : Multiset (K × V)) := by
            rw [← hkvs1]
            exact hmemx
          rcases Multiset.mem_add.mp hin with hL | hR
          · exact Or.inl (List.mem_map.mpr ⟨(k', w), hL, rfl⟩)
          · right
            have hkv : (k', w) = kv := by simpa using hR
            rw [← hkv]
        · intro hx
          rcases hx with hx | hx
          · rcases List.mem_map.mp hx with ⟨⟨k', w⟩, hmemx, rfl⟩
            have hin : (k', w) ∈ ((get_keys_and_values (insertPhase kv.1 kv.2 t) : List (K × V)) : Multiset (K × V)) := by
              rw [hkvs1]
              exact Multiset.mem_add.mpr (Or.inl hmemx)
            exact List.mem_map.mpr ⟨(k', w), hin, rfl⟩
          · subst hx
            have hin : kv ∈ ((get_keys_and_values (insertPhase kv.1 kv.2 t) : List (K × V)) : Multiset (K × V)) := by
              rw [hkvs1]
              exact Multiset.mem_add.mpr (Or.inr (by simp))
            exact List.mem_map.mpr ⟨kv, hin, rfl⟩
      simp only [List.map_cons, List.nodup_cons] at hnd
      obtain ⟨h1, h2, h3⟩ := ih (insertPhase kv.1 kv.2 t) hInv1 h
        (by
          have hs := insertPhase_size_le_sc kv.1 kv.2 t
          have hc := insertPhase_capacity_sc kv.1 kv.2 t
          simp only [List.length_cons] at hroom
          omega)
        (by
          intro p hp habs
          rcases (hmem1 p.1).mp habs with hx | hx
          · exact hdisj p (List.mem_cons_of_mem _ hp) hx
          · exact hnd.1 (hx ▸ List.mem_map.mpr ⟨p, hp, rfl⟩))
        hnd.2
      refine ⟨h1, ?_, by rw [h3, insertPhase_hash_sc]⟩
      rw [h2, hkvs1]
      rw [add_assoc, Multiset.singleton_add, ← Multiset.cons_coe]

theorem flatten_replicate_nil {α : Type _} (n : Nat) :
    (List.replicate n ([] : List α)).flatten = [] := by
  induction n with
  | zero => rfl
  | succ m ih => simpa using ih

/-- The pre-resize inside `put` preserves the pair multiset. -/
theorem resize_next_kvs (s : HashMap K V) (hInv : Inv s) (g : Nat) (s1 : HashMap K V)
    (h : resize_table g (next_prime (2 * (s.capacity : Int))) s = some s1) :
    Inv s1 ∧
      ((get_keys_and_values s1 : List (K × V)) : Multiset (K × V))
        = ((get_keys_and_values s : List (K × V)) : Multiset (K × V)) ∧
      s1.hash_function = s.hash_function := by
  obtain ⟨g', rfl⟩ : ∃ g', g = g' + 1 := by
    cases g with
    | zero => rw [resize_zero_sc] at h; cases h
    | succ g' => exact ⟨g', rfl⟩
  have hx0 : (0:Int) ≤ 2 * (s.capacity : Int) := by positivity
  obtain ⟨q, hq, hqprime, hqm, _⟩ := next_prime_eq_least (2 * (s.capacity : Int)) hx0
  have hq2cap : 2 * s.capacity ≤ q := by
    have : ((2 * (s.capacity : Int)).toNat) = 2 * s.capacity := by omega
    omega
  have hq3 : 3 ≤ q := le_trans (le_max_right _ _) hqm
  rw [resize_succ_sc] at h
  split at h
  · rename_i hgate
    omega
  · rw [resizeRebuild] at h
    have hisp : is_prime (next_prime (2 * (s.capacity : Int))) = true := by
      rw [is_prime_iff_prime _ (by omega)]
      rw [hq]
      simpa using hqprime
    have hfreshcap : (freshMap (next_prime (2 * (s.capacity : Int))) s).capacity = q := by
      simp only [freshMap, coerceCapacity, hisp, if_true]
      omega
    have hfreshkvs : get_keys_and_values (freshMap (next_prime (2 * (s.capacity : Int))) s) = [] := by
      rw [get_keys_and_values]
      show (List.replicate (coerceCapacity (next_prime (2 * (s.capacity : Int)))) ([] : List (K × V))).flatten = []
      exact flatten_replicate_nil _
    have hn : (get_keys_and_values s).length = s.size := kvs_length_sc s hInv
    have hfInv : Inv (freshMap (next_prime (2 * (s.capacity : Int))) s) :=
      freshMap_Inv_sc _ s (by omega)
    obtain ⟨h1, h2, h3⟩ := putAll_fresh_kvs g' (get_keys_and_values s) _ s1 hfInv h
      (by
        rw [hfreshcap]
        show (freshMap (next_prime (2 * (s.capacity : Int))) s).size + _ ≤ q
        rw [show (freshMap (next_prime (2 * (s.capacity : Int))) s).size = 0 from rfl, hn]
        have := hInv.size_le
        omega)
      (by
        intro p _ habs
        rw [hfreshkvs] at habs
        simp at habs)
      (keys_global_nodup s hInv)
    rw [hfreshkvs] at h2
    refine ⟨h1, ?_, h3⟩
    rw [h2]
    simp

theorem preResize_get (fuel : Nat) (s s1 : HashMap K V) (hInv : Inv s)
    (h : preResize fuel s = some s1) :
    Inv s1 ∧ s1.size < s1.capacity ∧ s1.hash_function = s.hash_function ∧
      ∀ (x : K), get x s1 = get x s := by
  have hload := preResize_load_sc fuel s s1 hInv h
  rw [preResize] at h
  split at h
  · obtain ⟨hInv1, hkvs, hhash⟩ := resize_next_kvs s hInv fuel s1 h
    refine ⟨hInv1, hload, hhash, ?_⟩
    intro x
    cases hg : get x s with
    | some v =>
      have hmem := (get_eq_some_iff s hInv x v).mp hg
      have : (x, v) ∈ get_keys_and_values s1 := by
        have : (x, v) ∈ ((get_keys_and_values s1 : List (K × V)) : Multiset (K × V)) := by
          rw [hkvs]
          exact hmem
        exact this
      exact (get_eq_some_iff s1 hInv1 x v).mpr this
    | none =>
      rw [get_eq_none_iff s hInv] at hg
      rw [get_eq_none_iff s1 hInv1]
      intro habs
      apply hg
      obtain ⟨⟨k', w⟩, hmemx, hk⟩ := List.mem_map.mp habs
      cases hk
      have : (k', w) ∈ ((get_keys_and_values s : List (K × V)) : Multiset (K × V)) := by
        rw [← hkvs]
        exact hmemx
      exact List.mem_map.mpr ⟨(k', w), this, rfl⟩
  · cases h
    have hcap : 0 < s.capacity := hInv.cap_prime.pos
    exact ⟨hInv, hload, rfl, fun x => rfl⟩

/-- The bucket write of `put` updates the key's binding and nothing else. -/
theorem insertPhase_get (k : K) (v : V) (s : HashMap K V) (hInv : Inv s)
    (hroom : s.size < s.capacity) :
    ∀ (x : K), get x (insertPhase k v s) = if x = k then some v else get x s := by
  classical
  have hInv' := insertPhase_Inv_sc k v s hInv hroom
  have hcount : ∀ (x : K) (w : V), x ≠ k →
      ((x, w) ∈ get_keys_and_values (insertPhase k v s) ↔ (x, w) ∈ get_keys_and_values s) := by
    intro x w hx
    by_cases hc : chainContains k (bucketAt s (bucketIndex s k)) = true
    · obtain ⟨old, _, heq⟩ := insertPhase_kvs_over k v s hInv hc
      constructor
      · intro hm
        have h1 : ((x, w) : K × V) ∈ ((get_keys_and_values s : List (K × V)) : Multiset (K × V)) + ({(k, v)} : Multiset (K × V)) := by
          rw [← heq]
          exact Multiset.mem_add.mpr (Or.inl (Multiset.mem_coe.mpr hm))
        rcases Multiset.mem_add.mp h1 with h2 | h2
        · exact Multiset.mem_coe.mp h2
        · exact absurd (congrArg Prod.fst (by simpa using h2 : ((x, w) : K × V) = (k, v))) hx
      · intro hm
        have h1 : ((x, w) : K × V) ∈ ((get_keys_and_values (insertPhase k v s) : List (K × V)) : Multiset (K × V)) + ({(k, old)} : Multiset (K × V)) := by
          rw [heq]
          exact Multiset.mem_add.mpr (Or.inl (Multiset.mem_coe.mpr hm))
        rcases Multiset.mem_add.mp h1 with h2 | h2
        · exact Multiset.mem_coe.mp h2
        · exact absurd (congrArg Prod.fst (by simpa using h2 : ((x, w) : K × V) = (k, old))) hx
    · have heq := insertPhase_kvs_new k v s hInv (by simpa using hc)
      constructor
      · intro hm
        have h1 : ((x, w) : K × V) ∈ ((get_keys_and_values s : List (K × V)) : Multiset (K × V)) + ({(k, v)} : Multiset (K × V)) := by
          rw [← heq]
          exact Multiset.mem_coe.mpr hm
        rcases Multiset.mem_add.mp h1 with h2 | h2
        · exact Multiset.mem_coe.mp h2
        · exact absurd (congrArg Prod.fst (by simpa using h2 : ((x, w) : K × V) = (k, v))) hx
      · intro hm
        apply Multiset.mem_coe.mp
        rw [heq]
        exact Multiset.mem_add.mpr (Or.inl (Multiset.mem_coe.mpr hm))
  intro x
  by_cases hx : x = k
  · subst hx
    rw [if_pos rfl]
    apply (get_eq_some_iff _ hInv' x v).mpr
    by_cases hc : chainContains x (bucketAt s (bucketIndex s x)) = true
    · obtain ⟨old, holdmem, heq⟩ := insertPhase_kvs_over x v s hInv hc
      have h1 : ((x, v) : K × V) ∈ ((get_keys_and_values (insertPhase x v s) : List (K × V)) : Multiset (K × V)) + ({(x, old)} : Multiset (K × V)) := by
        rw [heq]
        exact Multiset.mem_add.mpr (Or.inr (by simp))
      rcases Multiset.mem_add.mp h1 with h2 | h2
      · exact Multiset.mem_coe.mp h2
      · have hov : ((x, v) : K × V) = (x, old) := by simpa using h2
        rw [← hov] at heq
        have hcancel : ((get_keys_and_values (insertPhase x v s) : List (K × V)) : Multiset (K × V))
            = ((get_keys_and_values s : List (K × V)) : Multiset (K × V)) := add_right_cancel heq
        apply Multiset.mem_coe.mp
        rw [hcancel]
        exact Multiset.mem_coe.mpr (by rw [hov]; exact holdmem)
    · have heq := insertPhase_kvs_new x v s hInv (by simpa using hc)
      have : (x, v) ∈ ((get_keys_and_values (insertPhase x v s) : List (K × V)) : Multiset (K × V)) := by
        rw [heq]
        exact Multiset.mem_add.mpr (Or.inr (by simp))
      exact this
  · rw [if_neg hx]
    cases hg : get x s with
    | some w =>
      exact (get_eq_some_iff _ hInv' x w).mpr
        ((hcount x w hx).mpr ((get_eq_some_iff s hInv x w).mp hg))
    | none =>
      rw [get_eq_none_iff s hInv] at hg
      rw [get_eq_none_iff _ hInv']
      intro habs
      apply hg
      obtain ⟨⟨k', w⟩, hmemx, hk⟩ := List.mem_map.mp habs
      cases hk
      exact List.mem_map.mpr ⟨(k', w), (hcount k' w hx).mp hmemx, rfl⟩

/-- Pointwise effect of a returning `put` on `get`: the written key maps to
the new value, every other key is untouched. -/
theorem put_get_update (fuel : Nat) (k : K) (v : V) (s s' : HashMap K V)
    (hInv : Inv s) (h : put fuel k v s = some s') :
    Inv s' ∧ (∀ (x : K), get x s' = if x = k then some v else get x s) := by
  obtain ⟨g, rfl⟩ : ∃ g, fuel = g + 1 := by
    cases fuel with
    | zero => rw [put_zero_sc] at h; cases h
    | succ g => exact ⟨g, rfl⟩
  rw [put_succ_sc] at h
  cases hpre : preResize g s with
  | none => rw [hpre] at h; cases h
  | some s1 =>
    rw [hpre] at h
    simp only [Option.map_some'] at h
    cases h
    obtain ⟨hInv1, hload1, _, hget1⟩ := preResize_get g s s1 hInv hpre
    refine ⟨insertPhase_Inv_sc k v s1 hInv1 hload1, ?_⟩
    intro x
    rw [insertPhase_get k v s1 hInv1 hload1 x]
    by_cases hx : x = k
    · rw [if_pos hx, if_pos hx]
    · rw [if_neg hx, if_neg hx, hget1 x]

/-- Core of claim C1 for the chaining variant: a `put` that returns makes
the key observable with the stored value. -/
theorem put_get_contains_sc (fuel : Nat) (k : K) (v : V) (s s' : HashMap K V)
    (hInv : Inv s) (h : put fuel k v s = some s') :
    get k s' = some v ∧ contains_key k s' = true := by
  obtain ⟨hInv', hget⟩ := put_get_update fuel k v s s' hInv h
  have hg : get k s' = some v := by rw [hget k, if_pos rfl]
  exact ⟨hg, contains_of_get_some s' k v hg⟩

/-- On a well-formed map, `contains_key` answers exactly whether `get`
finds a value. -/
theorem contains_key_true_iff_get (s : HashMap K V) (hInv : Inv s) (k : K) :
    contains_key k s = true ↔ get k s ≠ none := by
  constructor
  · intro h
    rw [contains_key_iff s hInv] at h
    obtain ⟨⟨k', v⟩, hmem, hk⟩ := List.mem_map.mp h
    cases hk
    rw [(get_eq_some_iff s hInv _ v).mpr hmem]
    exact Option.some_ne_none v
  · intro h
    cases hg : get k s with
    | none => exact absurd hg h
    | some v => exact contains_of_get_some s k v hg

/-- Every reachable chaining map state satisfies the well-formedness
invariant. -/
theorem Reach_Inv_sc (s : HashMap K V) (h : Reach s) : Inv s := by
  induction h with
  | of_init c hc f => exact init_Inv_sc c hc f
  | of_put fuel k v s s' _ hp ih => exact (fuel_Inv_sc fuel).1 k v s s' ih hp
  | of_resize fuel x s s' _ hr ih => exact (fuel_Inv_sc fuel).2.1 x s s' ih hr
  | of_remove k s _ ih => exact remove_Inv_sc k s ih
  | of_clear s _ ih => exact clear_Inv_sc s ih

/-- `get` on a fresh map finds nothing (the `contains_key` size gate
fires). -/
theorem get_init_sc (c : Int) (f : K → Nat) (k : K) :
    get k (init c f : HashMap K V) = none := by
  rw [get, contains_key]
  simp [init]

/-- Branch of the frequency loop taken for a fresh element. -/
theorem find_mode_loop_cons_new (fuel : Nat) (x : K) (rest : List K)
    (m : HashMap K Nat) (hc : contains_key x m = false) :
    find_mode_loop fuel (x :: rest) m =
      match put fuel x 1 m with
      | none => none
      | some m' => find_mode_loop fuel rest m' := by
  rw [find_mode_loop, hc]
  rfl

/-- Branch of the frequency loop taken for an element already counted. -/
theorem find_mode_loop_cons_over (fuel : Nat) (x : K) (rest : List K)
    (m : HashMap K Nat) (c : Nat) (hc : contains_key x m = true)
    (hg : get x m = some c) :
    find_mode_loop fuel (x :: rest) m =
      match put fuel x (c + 1) m with
      | none => none
      | some m' => find_mode_loop fuel rest m' := by
  rw [find_mode_loop, hc, hg]
  rfl

/-- Invariant of the frequency loop: the map stores exactly the occurrence
counts of the elements processed so far. -/
theorem find_mode_loop_spec (fuel : Nat) (da : List K) : ∀ (p : List K)
    (m m' : HashMap K Nat), Inv m →
    (∀ y, get y m = if p.count y = 0 then none else some (p.count y)) →
    find_mode_loop fuel da m = some m' →
    Inv m' ∧ ∀ y, get y m' =
      if (p ++ da).count y = 0 then none else some ((p ++ da).count y) := by
  induction da with
  | nil =>
    intro p m m' hInv hm h
    rw [find_mode_loop] at h
    cases h
    simpa using ⟨hInv, hm⟩
  | cons x rest ih =>
    intro p m m' hInv hm h
    have hcx := hm x
    by_cases hcount : p.count x = 0
    · have hget : get x m = none := by rw [hcx, if_pos hcount]
      have hcont : contains_key x m = false := by
        rcases Bool.eq_false_or_eq_true (contains_key x m) with hc | hc
        · exact absurd hget ((contains_key_true_iff_get m hInv x).mp hc)
        · exact hc
      rw [find_mode_loop_cons_new fuel x rest m hcont] at h
      cases hput : put fuel x 1 m with
      | none => rw [hput] at h; cases h
      | some m1 =>
        rw [hput] at h
        obtain ⟨hInv1, hg1⟩ := put_get_update fuel x 1 m m1 hInv hput
        have hm1 : ∀ y, get y m1 =
            if (p ++ [x]).count y = 0 then none else some ((p ++ [x]).count y) := by
          intro y
          rw [hg1 y]
          by_cases hy : y = x
          · subst hy
            rw [if_pos rfl, List.count_append]
            simp [hcount]
          · rw [if_neg hy, hm y, List.count_append]
            simp [List.count_singleton', hy]
        have := ih (p ++ [x]) m1 m' hInv1 hm1 h
        simpa [List.append_assoc] using this
    · have hget : get x m = some (p.count x) := by rw [hcx, if_neg hcount]
      have hcont : contains_key x m = true := contains_of_get_some m x _ hget
      rw [find_mode_loop_cons_over fuel x rest m (p.count x) hcont hget] at h
      cases hput : put fuel x (p.count x + 1) m with
      | none => rw [hput] at h; cases h
      | some m1 =>
        rw [hput] at h
        obtain ⟨hInv1, hg1⟩ := put_get_update fuel x (p.count x + 1) m m1 hInv hput
        have hm1 : ∀ y, get y m1 =
            if (p ++ [x]).count y = 0 then none else some ((p ++ [x]).count y) := by
          intro y
          rw [hg1 y]
          by_cases hy : y = x
          · subst hy
            rw [if_pos rfl, List.count_append]
            simp
          · rw [if_neg hy, hm y, List.count_append]
            simp [List.count_singleton', hy]
        have := ih (p ++ [x]) m1 m' hInv1 hm1 h
        simpa [List.append_assoc] using this

/-- The running maximum of a fold over the second components only grows. -/
theorem foldl_max_le_self {α : Type _} (l : List (α × Nat)) (a : Nat) :
    a ≤ l.foldl (fun acc p => max acc p.2) a := by
  induction l generalizing a with
  | nil => exact le_refl a
  | cons q rest ih => exact le_trans (le_max_left a q.2) (ih (max a q.2))

/-- Every second component is bounded by the fold's maximum. -/
theorem foldl_max_bound {α : Type _} (l : List (α × Nat)) (a : Nat)
    (p : α × Nat) (hp : p ∈ l) :
    p.2 ≤ l.foldl (fun acc p => max acc p.2) a := by
  induction l generalizing a with
  | nil => cases hp
  | cons q rest ih =>
    rcases List.mem_cons.mp hp with hq | hq
    · subst hq
      exact le_trans (le_max_right a p.2) (foldl_max_le_self rest _)
    · exact ih (max a q.2) hq

/-- The fold's maximum is its seed or is attained by some element. -/
theorem foldl_max_attained {α : Type _} (l : List (α × Nat)) (a : Nat) :
    l.foldl (fun acc p => max acc p.2) a = a ∨
      ∃ p ∈ l, l.foldl (fun acc p => max acc p.2) a = p.2 := by
  induction l generalizing a with
  | nil => exact Or.inl rfl
  | cons q rest ih =>
    rcases ih (max a q.2) with h | h
    · rw [List.foldl_cons, h]
      rcases Nat.le_total a q.2 with hle | hle
      · exact Or.inr ⟨q, List.mem_cons_self _ _, max_eq_right hle⟩
      · exact Or.inl (max_eq_left hle)
    · obtain ⟨p, hp, hep⟩ := h
      exact Or.inr ⟨p, List.mem_cons_of_mem _ hp, hep⟩

/-- The mode-collection fold is the filtered key list, appended to the
accumulator. -/
theorem foldl_collect {α β : Type _} [DecidableEq β] (q : β) (l : List (α × β)) :
    ∀ (acc : List α), l.foldl (fun acc p => if p.2 = q then acc ++ [p.1] else acc) acc
      = acc ++ (l.filter (fun p => decide (p.2 = q))).map Prod.fst := by
  induction l with
  | nil => intro acc; simp
  | cons kv rest ih =>
    intro acc
    rw [List.foldl_cons]
    by_cases hq : kv.2 = q
    · rw [if_pos hq, ih (acc ++ [kv.1])]
      simp [List.filter_cons, hq]
    · rw [if_neg hq, ih acc]
      simp [List.filter_cons, hq]

end SC

/-- A `put` with one unit of fuel on a table loaded strictly below one half
never resizes: it is exactly the probe-and-write phase. -/
theorem put_one_no_trigger {K V : Type} [DecidableEq K] (k : K) (v : V)
    (s : OA.HashMap K V) (h : 2 * s.size < s.capacity ∨ s.capacity = 0) :
    OA.put 1 k v s = some (OA.insertPhase k v s) :=
  OA.put_no_trigger 0 k v s (OA.no_trigger_of_small s h)

/-- Chaining analogue of `put_one_no_trigger` for loads strictly below one. -/
theorem put_one_no_trigger_sc {K V : Type} [DecidableEq K] (k : K) (v : V)
    (s : SC.HashMap K V) (h : s.size < s.capacity ∨ s.capacity = 0) :
    SC.put 1 k v s = some (SC.insertPhase k v s) :=
  SC.put_no_trigger_sc 0 k v s (SC.no_trigger_of_small_sc s h)

/-- `putAll` on an explicit head pair, with the components split out. -/
theorem putAll_cons_pair {K V : Type} [DecidableEq K] (fuel : Nat) (a : K) (b : V)
    (rest : List (K × V)) (t : OA.HashMap K V) :
    OA.putAll fuel ((a, b) :: rest) t =
      match OA.put fuel a b t with
      | none => none
      | some t' => OA.putAll fuel rest t' :=
  OA.putAll_cons fuel (a, b) rest t

theorem ex_put1 : OA.put 1 0 10 (OA.init 3 exHash) = some exS1 := by
  rw [put_one_no_trigger 0 10 (OA.init 3 exHash) (Or.inl (by decide))]
  rfl

theorem ex_put2 : OA.put 1 3 20 exS1 = some exS2 := by
  rw [put_one_no_trigger 3 20 exS1 (Or.inl (by decide))]
  rfl

theorem ex_remove0 : OA.remove 0 exS2 = exTomb := by rfl

theorem ex_put3 : OA.put 1 3 99 exTomb = some exDup := by
  rw [put_one_no_trigger 3 99 exTomb (Or.inl (by decide))]
  rfl

theorem Reach_exTomb : OA.Reach exTomb := by
  rw [← ex_remove0]
  exact OA.Reach.of_remove 0 exS2
    (OA.Reach.of_put 1 3 20 exS1 exS2
      (OA.Reach.of_put 1 0 10 (OA.init 3 exHash) exS1
        (OA.Reach.of_init 3 (by norm_num) exHash) ex_put1) ex_put2)

theorem Reach_exDup : OA.Reach exDup :=
  OA.Reach.of_put 1 3 99 exTomb exDup Reach_exTomb ex_put3

theorem ex_resize : OA.resize_table 2 7 exDup = some exResized := by
  have hgate : OA.resize_table 2 7 exDup = OA.resizeRebuild 1 7 exDup := by
    have h := OA.resize_succ 1 7 exDup
    rw [if_neg (by decide)] at h
    exact h
  rw [hgate, OA.resizeRebuild]
  show OA.putAll 1 [(3, 99), (3, 20)]
    (⟨[none, none, none, none, none, none, none], 7, 0, exHash⟩ : OA.HashMap Nat Nat) = some exResized
  rw [putAll_cons_pair]
  rw [put_one_no_trigger 3 99 _ (Or.inl (by decide))]
  show OA.putAll 1 [(3, 20)]
    (⟨[none, none, none, some ⟨3, 99, false⟩, none, none, none], 7, 1, exHash⟩ : OA.HashMap Nat Nat) = some exResized
  rw [putAll_cons_pair]
  rw [put_one_no_trigger 3 20 _ (Or.inl (by decide))]
  show OA.putAll 1 ([] : List (Nat × Nat)) exResized = some exResized
  rw [OA.putAll_nil]

theorem sc_put1 : SC.put 1 1 1 (SC.init 11 exHash) = some scM1 := by
  rw [put_one_no_trigger_sc 1 1 (SC.init 11 exHash) (Or.inl (by decide))]
  rfl

theorem sc_put2 : SC.put 1 2 1 scM1 = some scM2 := by
  rw [put_one_no_trigger_sc 2 1 scM1 (Or.inl (by decide))]
  rfl

theorem sc_put3 : SC.put 1 2 2 scM2 = some scM3 := by
  rw [put_one_no_trigger_sc 2 2 scM2 (Or.inl (by decide))]
  rfl

theorem sc_put4 : SC.put 1 3 1 scM3 = some scM4 := by
  rw [put_one_no_trigger_sc 3 1 scM3 (Or.inl (by decide))]
  rfl

theorem sc_put5 : SC.put 1 3 2 scM4 = some scM5 := by
  rw [put_one_no_trigger_sc 3 2 scM4 (Or.inl (by decide))]
  rfl

theorem sc_put6 : SC.put 1 3 3 scM5 = some scM6 := by
  rw [put_one_no_trigger_sc 3 3 scM5 (Or.inl (by decide))]
  rfl

theorem find_mode_example_loop :
    SC.find_mode_loop 1 [1, 2, 2, 3, 3, 3] (SC.init 11 exHash) = some scM6 := by
  rw [SC.find_mode_loop_cons_new 1 1 [2, 2, 3, 3, 3] (SC.init 11 exHash) (by rfl), sc_put1]
  show SC.find_mode_loop 1 [2, 2, 3, 3, 3] scM1 = some scM6
  rw [SC.find_mode_loop_cons_new 1 2 [2, 3, 3, 3] scM1 (by rfl), sc_put2]
  show SC.find_mode_loop 1 [2, 3, 3, 3] scM2 = some scM6
  rw [SC.find_mode_loop_cons_over 1 2 [3, 3, 3] scM2 1 (by rfl) (by rfl), sc_put3]
  show SC.find_mode_loop 1 [3, 3, 3] scM3 = some scM6
  rw [SC.find_mode_loop_cons_new 1 3 [3, 3] scM3 (by rfl), sc_put4]
  show SC.find_mode_loop 1 [3, 3] scM4 = some scM6
  rw [SC.find_mode_loop_cons_over 1 3 [3] scM4 1 (by rfl) (by rfl), sc_put5]
  show SC.find_mode_loop 1 [3] scM5 = some scM6
  rw [SC.find_mode_loop_cons_over 1 3 [] scM5 2 (by rfl) (by rfl), sc_put6]
  show SC.find_mode_loop 1 ([] : List Nat) scM6 = some scM6
  rw [SC.find_mode_loop]

theorem find_mode_example_run :
    SC.find_mode 1 exHash [1, 2, 2, 3, 3, 3] = some ([3], 3) := by
  unfold SC.find_mode
  rw [find_mode_example_loop]
  rfl

theorem c5_put1 : OA.put 1 1 1 (OA.init 5 exHash) = some c5S1 := by
  rw [put_one_no_trigger 1 1 (OA.init 5 exHash) (Or.inl (by decide))]
  rfl

theorem c5_put2 : OA.put 1 2 2 c5S1 = some c5S2 := by
  rw [put_one_no_trigger 2 2 c5S1 (Or.inl (by decide))]
  rfl

theorem c5_put3 : OA.put 1 3 3 c5S2 = some c5S3 := by
  rw [put_one_no_trigger 3 3 c5S2 (Or.inl (by decide))]
  rfl

theorem Reach_c5S3 : OA.Reach c5S3 :=
  OA.Reach.of_put 1 3 3 c5S2 c5S3
    (OA.Reach.of_put 1 2 2 c5S1 c5S2
      (OA.Reach.of_put 1 1 1 (OA.init 5 exHash) c5S1
        (OA.Reach.of_init 5 (by norm_num) exHash) c5_put1) c5_put2) c5_put3

/-! ### The claims -/

/-- C1: on every reachable state of either variant, a `put(k, v)` that
returns makes `get(k)` yield `v` and `contains_key(k)` answer true. -/
theorem c1_put_then_get_and_contains {K V : Type} [DecidableEq K]
    (fuelA fuelB : Nat) (kA : K) (vA : V) (kB : K) (vB : V)
    (s s' : OA.HashMap K V) (t t' : SC.HashMap K V)
    (hs : OA.Reach s) (hsp : OA.put fuelA kA vA s = some s')
    (ht : SC.Reach t) (htp : SC.put fuelB kB vB t = some t') :
    OA.get kA s' = some vA ∧ OA.contains_key kA s' = true ∧
    SC.get kB t' = some vB ∧ SC.contains_key kB t' = true := by
  obtain ⟨h1, h2⟩ := OA.put_get_contains fuelA kA vA s s' (OA.Reach_Inv s hs) hsp
  obtain ⟨h3, h4⟩ := SC.put_get_contains_sc fuelB kB vB t t' (SC.Reach_Inv_sc t ht) htp
  exact ⟨h1, h2, h3, h4⟩

/-- Witness for C1 at a concrete run: `put(0, 10)` into a fresh
open-addressing map and `put(1, 1)` into a fresh chaining map. -/
theorem c1_put_then_get_and_contains_witness :
    OA.get 0 exS1 = some 10 ∧ OA.contains_key 0 exS1 = true ∧
    SC.get 1 scM1 = some 1 ∧ SC.contains_key 1 scM1 = true :=
  c1_put_then_get_and_contains 1 1 0 10 1 1 (OA.init 3 exHash) exS1
    (SC.init 11 exHash) scM1
    (OA.Reach.of_init 3 (by norm_num) exHash) ex_put1
    (SC.Reach.of_init 11 (by norm_num) exHash) sc_put1

/-- C2: counterexample evaluation for the tombstone-probing claim.  In the
reachable state `exTomb`, key 3 is live at slot 1 behind a tombstone at
slot 0 of its probe sequence; `put(3, 99)` stops at the tombstone and
inserts a second live key-3 entry there instead of overwriting in place,
growing the size from 1 to 2 and leaving two live entries for key 3. -/
theorem c2_tombstone_duplicate_insert_eval :
    OA.Reach exTomb ∧ OA.contains_key 3 exTomb = true ∧ exTomb.size = 1 ∧
    OA.put 1 3 99 exTomb = some exDup ∧ exDup.size = 2 ∧
    ((OA.get_keys_and_values exDup).map Prod.fst).count 3 = 2 :=
  ⟨Reach_exTomb, by decide, rfl, ex_put3, rfl, by decide⟩

/-- C3: counterexample evaluation for the resize round-trip claim.  On the
reachable state `exDup` (two live entries for key 3), `resize_table(7)`
re-inserts the snapshot pairs one by one; the second insertion finds the
first and overwrites it, so the pair multiset shrinks from
{(3, 99), (3, 20)} to {(3, 20)}. -/
theorem c3_resize_changes_pair_multiset_eval :
    OA.Reach exDup ∧
    OA.get_keys_and_values exDup = [(3, 99), (3, 20)] ∧
    OA.resize_table 2 7 exDup = some exResized ∧
    OA.get_keys_and_values exResized = [(3, 20)] ∧
    ((OA.get_keys_and_values exDup : List (Nat × Nat)) : Multiset (Nat × Nat)) ≠
      ((OA.get_keys_and_values exResized : List (Nat × Nat)) : Multiset (Nat × Nat)) := by
  refine ⟨Reach_exDup, by decide, ex_resize, by decide, ?_⟩
  intro habs
  rw [show OA.get_keys_and_values exDup = [(3, 99), (3, 20)] from by decide,
    show OA.get_keys_and_values exResized = [(3, 20)] from by decide] at habs
  have h := congrArg Multiset.card habs
  simp at h

/-- C4 (amended): for every non-negative requested capacity c, both
constructors produce the same capacity: the least prime that is at least
max(c, 3) — a prime, at least 2, never 0.  The spec's bound max(c, 2) is
wrong at c = 2, and negative even requests escape the coercion entirely
(see the counterexample). -/
theorem c4_capacity_least_prime_amended {K V : Type} [DecidableEq K]
    (c : Int) (hc : 0 ≤ c) (f : K → Nat) :
    ∃ q : Nat, (OA.init c f : OA.HashMap K V).capacity = q ∧
      (SC.init c f : SC.HashMap K V).capacity = q ∧
      Nat.Prime q ∧ 2 ≤ q ∧ max c.toNat 3 ≤ q ∧
      ∀ r : Nat, Nat.Prime r → max c.toNat 3 ≤ r → q ≤ r := by
  obtain ⟨q, hq, hprime, hge, hmin⟩ := next_prime_eq_least c hc
  refine ⟨q, ?_, ?_, hprime, hprime.two_le, hge, hmin⟩
  · show (next_prime c).toNat = q
    rw [hq]
    exact Int.toNat_natCast q
  · show (next_prime c).toNat = q
    rw [hq]
    exact Int.toNat_natCast q

/-- Witness for C4 at the concrete request 7 (whose coerced capacity is 7
itself). -/
theorem c4_capacity_least_prime_witness :
    ∃ q : Nat, (OA.init 7 exHash : OA.HashMap Nat Nat).capacity = q ∧
      (SC.init 7 exHash : SC.HashMap Nat Nat).capacity = q ∧
      Nat.Prime q ∧ 2 ≤ q ∧ max (7 : Int).toNat 3 ≤ q ∧
      ∀ r : Nat, Nat.Prime r → max (7 : Int).toNat 3 ≤ r → q ≤ r :=
  c4_capacity_least_prime_amended 7 (by norm_num) exHash

/-- C4 counterexample: requesting capacity 2 yields capacity 3 although 2
is itself a prime that is at least max(2, 2) = 2; and the negative even
request -2 passes `_next_prime`'s trial loop at the non-prime -1, so the
stored capacity becomes 0 and the load-factor division is no longer
well-defined. -/
theorem c4_capacity_counterexample :
    OA.get_capacity (OA.init 2 exHash : OA.HashMap Nat Nat) = 3 ∧
    SC.get_capacity (SC.init 2 exHash : SC.HashMap Nat Nat) = 3 ∧
    Nat.Prime 2 ∧ 2 < 3 ∧
    next_prime (-2) = -1 ∧
    OA.get_capacity (OA.init (-2) exHash : OA.HashMap Nat Nat) = 0 :=
  ⟨by decide, by decide, by norm_num, by norm_num, by decide, by decide⟩

/-- C5 (amended): the load check precedes the inserting write, so after a
`put` that returns, the open-addressing map satisfies
2·size ≤ capacity + 1 (load at most (capacity+1)/(2·capacity), not the
spec's strict one half — see the counterexample) and the chaining map
satisfies size ≤ capacity (load at most one, not strictly below it). -/
theorem c5_load_after_put_amended {K V : Type} [DecidableEq K]
    (fuelA fuelB : Nat) (kA : K) (vA : V) (kB : K) (vB : V)
    (s s' : OA.HashMap K V) (t t' : SC.HashMap K V)
    (hs : OA.Reach s) (hsp : OA.put fuelA kA vA s = some s')
    (ht : SC.Reach t) (htp : SC.put fuelB kB vB t = some t') :
    2 * s'.size ≤ s'.capacity + 1 ∧ t'.size ≤ t'.capacity := by
  constructor
  · obtain ⟨g, rfl⟩ : ∃ g, fuelA = g + 1 := by
      cases fuelA with
      | zero => rw [OA.put_zero] at hsp; cases hsp
      | succ g => exact ⟨g, rfl⟩
    rw [OA.put_succ] at hsp
    cases hpre : OA.preResize g s with
    | none => rw [hpre] at hsp; cases hsp
    | some s1 =>
      rw [hpre] at hsp
      simp only [Option.map_some'] at hsp
      cases hsp
      have hload := OA.preResize_load g s s1 (OA.Reach_Inv s hs) hpre
      have hsz := OA.insertPhase_size_le kA vA s1
      have hcap := OA.insertPhase_capacity kA vA s1
      omega
  · obtain ⟨g, rfl⟩ : ∃ g, fuelB = g + 1 := by
      cases fuelB with
      | zero => rw [SC.put_zero_sc] at htp; cases htp
      | succ g => exact ⟨g, rfl⟩
    rw [SC.put_succ_sc] at htp
    cases hpre : SC.preResize g t with
    | none => rw [hpre] at htp; cases htp
    | some t1 =>
      rw [hpre] at htp
      simp only [Option.map_some'] at htp
      cases htp
      have hload := SC.preResize_load_sc g t t1 (SC.Reach_Inv_sc t ht) hpre
      have hsz := SC.insertPhase_size_le_sc kB vB t1
      have hcap := SC.insertPhase_capacity_sc kB vB t1
      omega

/-- Witness for C5 at the same concrete runs as C1's witness. -/
theorem c5_load_after_put_witness :
    2 * exS1.size ≤ exS1.capacity + 1 ∧ scM1.size ≤ scM1.capacity :=
  c5_load_after_put_amended 1 1 0 10 1 1 (OA.init 3 exHash) exS1
    (SC.init 11 exHash) scM1
    (OA.Reach.of_init 3 (by norm_num) exHash) ex_put1
    (SC.Reach.of_init 11 (by norm_num) exHash) sc_put1

/-- C5 counterexample: the third `put` into a fresh capacity-5
open-addressing map returns with load 3/5 ≥ 1/2 (its pre-write check saw
2/5 < 1/2 and did not resize). -/
theorem c5_load_counterexample :
    OA.Reach c5S3 ∧ OA.put 1 3 3 c5S2 = some c5S3 ∧
    (1 : ℚ)/2 ≤ OA.table_load c5S3 :=
  ⟨Reach_c5S3, c5_put3, (OA.table_load_ge_half_iff c5S3 (by decide)).mpr (by decide)⟩

/-- C6: `resize_table` returns the state unchanged exactly under its
rejection guard — a requested capacity below the live size (open
addressing) or below 1 (chaining) — and in every other case takes the
rebuild path. -/
theorem c6_resize_gate {K V : Type} [DecidableEq K] (fuel : Nat) (x : Int)
    (s : OA.HashMap K V) (t : SC.HashMap K V) :
    (x < (s.size : Int) → OA.resize_table (fuel + 1) x s = some s) ∧
    (¬ x < (s.size : Int) →
      OA.resize_table (fuel + 1) x s = OA.resizeRebuild fuel x s) ∧
    (x < 1 → SC.resize_table (fuel + 1) x t = some t) ∧
    (¬ x < 1 → SC.resize_table (fuel + 1) x t = SC.resizeRebuild fuel x t) := by
  refine ⟨fun h => ?_, fun h => ?_, fun h => ?_, fun h => ?_⟩
  · rw [OA.resize_succ, if_pos h]
  · rw [OA.resize_succ, if_neg h]
  · rw [SC.resize_succ_sc, if_pos h]
  · rw [SC.resize_succ_sc, if_neg h]

/-- C7: counterexample evaluation for the remove claim.  On the reachable
state `exDup` (two live entries for key 3), `remove(3)` tombstones only
the first probe hit, so `contains_key(3)` still answers true right after
the removal. -/
theorem c7_remove_leaves_key_eval :
    OA.Reach exDup ∧ OA.contains_key 3 exDup = true ∧
    OA.remove 3 exDup =
      ⟨[some ⟨3, 99, true⟩, some ⟨3, 20, false⟩, none], 3, 1, exHash⟩ ∧
    OA.contains_key 3 (OA.remove 3 exDup) = true :=
  ⟨Reach_exDup, by decide, rfl, by decide⟩

/-- C8 (amended): on every reachable state, `empty_buckets()` plus the
count of live (occupied, non-tombstoned) slots equals the capacity in the
open-addressing map — the spec's "occupied or tombstoned" second summand
double-counts tombstones, see the counterexample — and the chain lengths
across all buckets sum to the size in the chaining map. -/
theorem c8_bucket_accounting_amended {K V : Type} [DecidableEq K]
    (s : OA.HashMap K V) (t : SC.HashMap K V)
    (hs : OA.Reach s) (ht : SC.Reach t) :
    OA.empty_buckets s + OA.liveCount s = s.capacity ∧
    (t.buckets.map List.length).sum = t.size := by
  have hInv := OA.Reach_Inv s hs
  have hInvt := SC.Reach_Inv_sc t ht
  constructor
  · have hcong : List.countP OA.slotLive s.buckets
        = List.countP (fun o => !OA.slotAvailable o) s.buckets :=
      List.countP_congr (fun o _ => by rw [OA.slotLive_eq_not_available])
    rw [OA.empty_buckets, OA.liveCount, hcong,
      countP_add_countP_not OA.slotAvailable s.buckets, hInv.len_eq]
  · exact hInvt.size_eq.symm

/-- Witness for C8 at two freshly constructed maps. -/
theorem c8_bucket_accounting_witness :
    OA.empty_buckets (OA.init 3 exHash : OA.HashMap Nat Nat) +
        OA.liveCount (OA.init 3 exHash : OA.HashMap Nat Nat) =
      (OA.init 3 exHash : OA.HashMap Nat Nat).capacity ∧
    ((SC.init 11 exHash : SC.HashMap Nat Nat).buckets.map List.length).sum =
      (SC.init 11 exHash : SC.HashMap Nat Nat).size :=
  c8_bucket_accounting_amended (OA.init 3 exHash) (SC.init 11 exHash)
    (OA.Reach.of_init 3 (by norm_num) exHash)
    (SC.Reach.of_init 11 (by norm_num) exHash)

/-- C8 counterexample: in the reachable state `exTomb` (one tombstone, one
live entry, one empty slot), `empty_buckets()` = 2 counts the tombstone as
available while the spec's occupied-or-tombstoned count = 2 counts it as
stored, so their sum 4 overshoots the capacity 3. -/
theorem c8_bucket_accounting_counterexample :
    OA.Reach exTomb ∧ OA.empty_buckets exTomb = 2 ∧
    occupied_or_tombstoned_count exTomb = 2 ∧ exTomb.capacity = 3 ∧
    OA.empty_buckets exTomb + occupied_or_tombstoned_count exTomb ≠
      exTomb.capacity :=
  ⟨Reach_exTomb, by decide, by decide, rfl, by decide⟩

/-- C9: a returning `find_mode` yields exactly the set of elements
attaining the maximum occurrence count of the input together with that
count: membership in the returned mode list characterizes the elements
whose count equals the returned frequency, the frequency bounds every
count, an empty input yields an empty mode list with frequency 0, and a
non-empty input's frequency is attained by some element.  The witness
instantiates this at the spec's example `[1, 2, 2, 3, 3, 3]`, whose
concrete run returns ({3}, 3). -/
theorem c9_find_mode_mode_set {K : Type} [DecidableEq K] (fuel : Nat)
    (f : K → Nat) (da modes : List K) (freq : Nat)
    (h : SC.find_mode fuel f da = some (modes, freq)) :
    (∀ x, x ∈ modes ↔ (x ∈ da ∧ da.count x = freq)) ∧
    (∀ x ∈ da, da.count x ≤ freq) ∧
    (da = [] → modes = [] ∧ freq = 0) ∧
    (da ≠ [] → ∃ x ∈ da, da.count x = freq) := by
  unfold SC.find_mode at h
  cases hloop : SC.find_mode_loop fuel da (SC.init 11 f) with
  | none => rw [hloop] at h; cases h
  | some m =>
    rw [hloop] at h
    injection h with hpair
    obtain ⟨hmodes, hfreq⟩ := Prod.mk.inj hpair
    subst hmodes
    subst hfreq
    obtain ⟨hInvm, hget⟩ := SC.find_mode_loop_spec fuel da [] (SC.init 11 f) m
      (SC.init_Inv_sc 11 (by norm_num) f)
      (fun y => by rw [SC.get_init_sc]; simp)
      hloop
    simp only [List.nil_append] at hget
    have hA : ∀ (y : K) (c : Nat), (y, c) ∈ SC.get_keys_and_values m ↔
        (da.count y ≠ 0 ∧ c = da.count y) := by
      intro y c
      constructor
      · intro hmem
        have hg := (SC.get_eq_some_iff m hInvm y c).mpr hmem
        rw [hget y] at hg
        by_cases hc : da.count y = 0
        · rw [if_pos hc] at hg; cases hg
        · rw [if_neg hc] at hg
          exact ⟨hc, (Option.some.inj hg).symm⟩
      · rintro ⟨hc, rfl⟩
        apply (SC.get_eq_some_iff m hInvm y (da.count y)).mp
        rw [hget y, if_neg hc]
    refine ⟨?_, ?_, ?_, ?_⟩
    · intro x
      rw [SC.foldl_collect, List.nil_append]
      constructor
      · intro hx
        rcases List.mem_map.mp hx with ⟨p, hpf, rfl⟩
        have hfil := List.mem_filter.mp hpf
        have hq : p.2 = (SC.get_keys_and_values m).foldl (fun a p => max a p.2) 0 := by
          simpa using hfil.2
        obtain ⟨hc, hcv⟩ := (hA p.1 p.2).mp hfil.1
        refine ⟨List.count_pos_iff.mp (by omega), by omega⟩
      · rintro ⟨hxda, hxc⟩
        have hc : da.count x ≠ 0 := by
          have := List.count_pos_iff.mpr hxda
          omega
        have hmem : (x, da.count x) ∈ SC.get_keys_and_values m :=
          (hA x (da.count x)).mpr ⟨hc, rfl⟩
        exact List.mem_map.mpr
          ⟨(x, da.count x), List.mem_filter.mpr ⟨hmem, by simp [hxc]⟩, rfl⟩
    · intro x hx
      have hc : da.count x ≠ 0 := by
        have := List.count_pos_iff.mpr hx
        omega
      have hmem : (x, da.count x) ∈ SC.get_keys_and_values m :=
        (hA x (da.count x)).mpr ⟨hc, rfl⟩
      exact SC.foldl_max_bound (SC.get_keys_and_values m) 0 (x, da.count x) hmem
    · intro hda
      subst hda
      have hLnil : SC.get_keys_and_values m = [] := by
        apply List.eq_nil_iff_forall_not_mem.mpr
        intro p hp
        have := (hA p.1 p.2).mp hp
        simp at this
      rw [hLnil]
      exact ⟨rfl, rfl⟩
    · intro hda
      obtain ⟨x0, hx0⟩ := List.exists_mem_of_ne_nil da hda
      have hc0 : da.count x0 ≠ 0 := by
        have := List.count_pos_iff.mpr hx0
        omega
      have hmem0 : (x0, da.count x0) ∈ SC.get_keys_and_values m :=
        (hA x0 (da.count x0)).mpr ⟨hc0, rfl⟩
      have hFge : da.count x0 ≤
          (SC.get_keys_and_values m).foldl (fun a p => max a p.2) 0 :=
        SC.foldl_max_bound (SC.get_keys_and_values m) 0 (x0, da.count x0) hmem0
      rcases SC.foldl_max_attained (SC.get_keys_and_values m) 0 with hF0 | hatt
      · omega
      · obtain ⟨p, hpL, hpF⟩ := hatt
        obtain ⟨hc, hcv⟩ := (hA p.1 p.2).mp hpL
        exact ⟨p.1, List.count_pos_iff.mp (by omega), by omega⟩

/-- Witness for C9 at the spec's example `[1, 2, 2, 3, 3, 3]`, whose
concrete run (identity hash, one unit of fuel) returns mode list `[3]`
with frequency 3. -/
theorem c9_find_mode_witness :
    (∀ x : Nat, x ∈ [3] ↔
      (x ∈ [1, 2, 2, 3, 3, 3] ∧ List.count x [1, 2, 2, 3, 3, 3] = 3)) ∧
    (∀ x ∈ [1, 2, 2, 3, 3, 3], List.count x [1, 2, 2, 3, 3, 3] ≤ 3) ∧
    ([1, 2, 2, 3, 3, 3] = ([] : List Nat) → [3] = ([] : List Nat) ∧ 3 = 0) ∧
    ([1, 2, 2, 3, 3, 3] ≠ ([] : List Nat) →
      ∃ x ∈ [1, 2, 2, 3, 3, 3], List.count x [1, 2, 2, 3, 3, 3] = 3) :=
  c9_find_mode_mode_set 1 exHash [1, 2, 2, 3, 3, 3] [3] 3 find_mode_example_run

/-- C10: `get` and `contains_key` are pure observers in both variants: as
state transformers they return their answer together with the map state
unchanged (the source methods assign to no field of `self`). -/
theorem c10_observers_pure {K V : Type} [DecidableEq K] (k : K)
    (s : OA.HashMap K V) (t : SC.HashMap K V) :
    OA.get_tr k s = (OA.get k s, s) ∧ (OA.get_tr k s).2 = s ∧
    OA.contains_key_tr k s = (OA.contains_key k s, s) ∧
    (OA.contains_key_tr k s).2 = s ∧
    SC.get_tr k t = (SC.get k t, t) ∧ (SC.get_tr k t).2 = t ∧
    SC.contains_key_tr k t = (SC.contains_key k t, t) ∧
    (SC.contains_key_tr k t).2 = t :=
  ⟨rfl, rfl, rfl, rfl, rfl, rfl, rfl, rfl⟩

end HashMapVerif
